import Mathlib

/-!
# Verification of the Knowledge Source MCP server (agentic_rag)

A shallow embedding of `agentic_rag/mcp_servers/knowledge_source` in Lean 4.
Text is modelled as `List Char` (named `Str` below); the Python regular
expressions used by `TextProcessor` are translated into explicit one-pass
scanners over character lists. Fallible Python code (raised exceptions)
is modelled with `Except String`.
-/

set_option maxHeartbeats 1000000

/-- Characters treated as whitespace by Python's `str.strip` / `\s`. -/
abbrev Str := List Char

/-- Python whitespace characters (space, tab, newline, carriage return,
form feed, vertical tab). -/
def pyWs (c : Char) : Bool :=
  c = ' ' || c = '\t' || c = '\n' || c = '\r' || c = '\x0b' || c = '\x0c'

/-- Drop trailing characters satisfying `pyWs` (right side of Python `str.strip`),
implemented without `reverse` for easier reasoning. -/
def dropTrailWs : Str → Str
  | [] => []
  | c :: rest =>
    let r := dropTrailWs rest
    if r.isEmpty && pyWs c then [] else c :: r

/-- Python `str.strip()`. -/
def stripStr (s : Str) : Str := dropTrailWs (s.dropWhile pyWs)

/-- Python `text.split("\n")` as a (head piece, remaining pieces) pair. -/
def splitNlP : Str → Str × List Str
  | [] => ([], [])
  | c :: rest =>
    if c = '\n' then ([], (splitNlP rest).1 :: (splitNlP rest).2)
    else (c :: (splitNlP rest).1, (splitNlP rest).2)

/-- Python `text.split("\n")`. -/
def splitNl (s : Str) : List Str := (splitNlP s).1 :: (splitNlP s).2

/-- Scanner for `re.sub(r"[ \t]+", " ", ·)`: the flag records whether the
previous character belonged to a space/tab run already collapsed. -/
def colSPGo : Str → Bool → Str
  | [], _ => []
  | c :: rest, inRun =>
    if c = ' ' || c = '\t' then
      if inRun then colSPGo rest true else ' ' :: colSPGo rest true
    else c :: colSPGo rest false

/-- `re.sub(r"[ \t]+", " ", ·)` from `TextProcessor._clean_whitespace`. -/
def colSP (s : Str) : Str := colSPGo s false

/-- Scanner for `re.sub(r"\n{3,}", "\n\n", ·)`: the counter is the number of
newlines seen so far in the current newline run; only the first two are kept. -/
def col3Go : Str → Nat → Str
  | [], _ => []
  | c :: rest, k =>
    if c = '\n' then
      if k < 2 then '\n' :: col3Go rest (k + 1) else col3Go rest (k + 1)
    else c :: col3Go rest 0

/-- `re.sub(r"\n{3,}", "\n\n", ·)` from `TextProcessor._clean_whitespace`. -/
def col3 (s : Str) : Str := col3Go s 0

/-- `"\n".join(...)` over a list of lines. -/
def joinNl : List Str → Str
  | [] => []
  | [l] => l
  | l :: ls => l ++ '\n' :: joinNl ls

/-- `TextProcessor._clean_whitespace`: collapse 3+ newlines to 2, collapse
space/tab runs to one space, strip every line and drop the empty ones. -/
def cleanWhitespace (t : Str) : Str :=
  joinNl (((splitNl (colSP (col3 t))).map stripStr).filter (fun l => !l.isEmpty))

/-- Python `str.replace(old, new)`: leftmost, non-overlapping. -/
def replaceAll (pat rep : Str) (s : Str) : Str :=
  if h : pat ≠ [] ∧ pat.isPrefixOf s then
    rep ++ replaceAll pat rep (s.drop pat.length)
  else
    match s with
    | [] => []
    | c :: t => c :: replaceAll pat rep t
termination_by s.length
decreasing_by
  · rcases pat with _ | ⟨p, ps⟩
    · exact absurd rfl h.1
    · have hs : s ≠ [] := by
        intro hnil
        rw [hnil] at h
        exact absurd h.2 (by simp [List.isPrefixOf])
      rcases s with _ | ⟨c, t⟩
      · exact absurd rfl hs
      · simp [List.length_drop]
        omega
  · simp

/-- Modelled from the spec: the entity-decoding replacements at the top of
`TextProcessor._remove_html_tags`. The spec lists the fixed entity set
(`&nbsp;`, `&amp;`, `&lt;`, `&gt;`, smart quotes, apostrophe); the replacement
string literals in the source copy are themselves entity-decoded and therefore
unreadable, so the decoded set is taken from the spec, applied in source order
(`&nbsp;` first, then `&amp;`, `&lt;`, `&gt;`, the quote entity, `&#39;`). -/
def decodeEntities (s : Str) : Str :=
  replaceAll "&#39;".toList "'".toList
    (replaceAll "&quot;".toList "\"".toList
      (replaceAll "&gt;".toList ">".toList
        (replaceAll "&lt;".toList "<".toList
          (replaceAll "&amp;".toList "&".toList
            (replaceAll "&nbsp;".toList " ".toList s)))))

/-- One-pass scanner for `re.sub(r"<[^>]+>", "", ·)`. The second argument is
`none` outside a candidate tag and `some buf` after an unmatched `<`, where
`buf` holds (reversed) the characters read since that `<`. -/
def untagGo : Str → Option Str → Str
  | [], none => []
  | [], some buf => '<' :: buf.reverse
  | c :: rest, none =>
    if c = '<' then untagGo rest (some []) else c :: untagGo rest none
  | c :: rest, some buf =>
    if c = '>' then
      if buf.isEmpty then '<' :: '>' :: untagGo rest none else untagGo rest none
    else untagGo rest (some (c :: buf))

/-- `re.sub(r"<[^>]+>", "", ·)` from `TextProcessor._remove_html_tags`. -/
def untag (s : Str) : Str := untagGo s none

/-- Python `str.replace("\n\n", "\n")` (the last step of
`TextProcessor._remove_html_tags`), specialised for easier reasoning. -/
def rdn : Str → Str
  | [] => []
  | [c] => [c]
  | c :: d :: rest =>
    if c = '\n' ∧ d = '\n' then '\n' :: rdn rest else c :: rdn (d :: rest)

/-- `TextProcessor._remove_html_tags`: decode entities, strip tag spans,
replace `"\n\n"` by `"\n"` once. -/
def removeHtmlTags (s : Str) : Str := rdn (untag (decodeEntities s))

/-- A Confluence page as consumed by the text processor and the server:
`storageValue` is `page["body"]["storage"]["value"]` with all the `.get`
defaults flattened (absent markup is the empty string). -/
structure ConfluencePage where
  storageValue : Str := []
  title : Option String := none
  spaceKey : Option String := none
  url : Option String := none
  version : Option Int := none
  updated : Option String := none
deriving DecidableEq, Repr

/-- `TextProcessor.extract_text`. -/
def extract_text (page : ConfluencePage) : Str :=
  let html := page.storageValue
  if html.isEmpty then []
  else stripStr (cleanWhitespace (removeHtmlTags html))

/-- Scanner for `re.split(r"\n{2,}", ·)`: when the flag is set we are inside a
run of two or more newlines (a separator); `cur` holds the current piece
reversed. A lookahead on `rest` decides whether a newline opens a separator. -/
def paraGo : Str → Str → Bool → List Str
  | [], cur, _ => [cur.reverse]
  | c :: rest, cur, inSep =>
    if inSep then
      if c = '\n' then paraGo rest cur true
      else paraGo rest [c] false
    else if c = '\n' then
      if rest.head? = some '\n' then cur.reverse :: paraGo rest [] true
      else paraGo rest ('\n' :: cur) false
    else paraGo rest (c :: cur) false

/-- `TextProcessor._split_by_paragraphs`: split on blank lines, strip, drop
empty pieces. -/
def splitByParagraphs (t : Str) : List Str :=
  ((paraGo t [] false).map stripStr).filter (fun p => !p.isEmpty)

/-- `.`, `!` or `?` (the sentence-final punctuation of the lookbehind). -/
def isPunct (c : Char) : Bool := c = '.' || c = '!' || c = '?'

/-- Head of the reversed current piece is sentence-final punctuation. -/
def headPunct : Str → Bool
  | p :: _ => isPunct p
  | [] => false

/-- Scanner for `re.split(r"(?<=[.!?])\s+", ·)`: a whitespace run whose first
character is preceded by `[.!?]` separates sentences; the flag marks that we
are inside such a run, `cur` holds the current piece reversed. -/
def sentGo : Str → Str → Bool → List Str
  | [], cur, _ => [cur.reverse]
  | c :: rest, cur, inSep =>
    if inSep then
      if pyWs c then sentGo rest cur true
      else sentGo rest [c] false
    else if pyWs c && headPunct cur then cur.reverse :: sentGo rest [] true
    else sentGo rest (c :: cur) false

/-- `TextProcessor._split_by_sentences`: split after sentence punctuation,
strip, drop empty pieces. -/
def splitBySentences (t : Str) : List Str :=
  ((sentGo t [] false).map stripStr).filter (fun s => !s.isEmpty)

/-- The sentence-accumulation loop of `TextProcessor._split_long_text`. -/
def splitLongLoop (cs : Nat) : List Str → List Str → List Str
  | [], acc => acc
  | s :: ss, acc =>
    let s' := stripStr s
    match acc with
    | [] => splitLongLoop cs ss [s']
    | _ :: _ =>
      let lastC := acc.getLastD []
      if cs < lastC.length + s'.length + 1 then
        splitLongLoop cs ss (acc ++ [s'])
      else
        splitLongLoop cs ss (acc.dropLast ++ [lastC ++ ' ' :: s'])

/-- `TextProcessor._split_long_text`. -/
def splitLongText (p : Str) (cs : Nat) : List Str :=
  splitLongLoop cs (splitBySentences p) []

/-- `s[-n:]` for `n > 0` (Python slicing used for the overlap text). -/
def takeRight (n : Nat) (l : Str) : Str := l.drop (l.length - n)

/-- The paragraph loop of `TextProcessor.split_text`: state is the list of
finished chunks and the chunk currently being accumulated. -/
def splitTextLoop (cs ov : Nat) : List Str → List Str → Str → List Str
  | [], chunks, cur => if cur.isEmpty then chunks else chunks ++ [cur]
  | p :: ps, chunks, cur =>
    let p' := stripStr p
    if cs < p'.length then
      let chunks1 := if cur.isEmpty then chunks else chunks ++ [cur]
      splitTextLoop cs ov ps (chunks1 ++ splitLongText p' cs) []
    else if cs < cur.length + p'.length + 2 then
      let chunks1 := if cur.isEmpty then chunks else chunks ++ [cur]
      let cur' :=
        if 0 < ov ∧ ¬chunks1.isEmpty then
          takeRight ov (chunks1.getLastD []) ++ ' ' :: p'
        else p'
      splitTextLoop cs ov ps chunks1 cur'
    else
      let cur' := if cur.isEmpty then p' else cur ++ '\n' :: '\n' :: p'
      splitTextLoop cs ov ps chunks cur'

/-- `TextProcessor.split_text` after the `or`-defaulting of its arguments
(`cs` is the effective chunk size, `ov` the effective overlap). -/
def split_text (cs ov : Nat) (text : Str) : List Str :=
  if text.isEmpty then []
  else
    let ps := splitByParagraphs text
    if ps.isEmpty then [] else splitTextLoop cs ov ps [] []

/-- The `or`-defaulting applied by `split_text` to its optional arguments
(`chunk_size or self.chunk_size`): `None` and `0` both fall back. -/
def orDefault (arg : Option Nat) (dflt : Nat) : Nat :=
  match arg with
  | none => dflt
  | some 0 => dflt
  | some n => n

/-! ## `KnowledgeSourceMCPServer` (server.py) -/

/-- A document dict as assembled by `_search_knowledge` / `_sync_knowledge_source`
(the keys consumed downstream). -/
structure Document where
  id : Str
  title : Str
  content : Str
  space : Str
  url : Str
deriving DecidableEq, Repr

/-- One vector dict produced by `_index_documents` and consumed by `upsert`. -/
structure IndexEntry where
  id : Str
  values : List Int
  page_id : Str
  page_title : Str
  space : Str
  url : Str
  chunk_index : Nat
  text : Str
deriving DecidableEq, Repr

/-- Dynamic keyword-argument call of `TextProcessor.split_text`: Python raises
`TypeError` for a keyword that matches no parameter (`text` is passed
positionally, so the accepted keywords are `chunk_size` and `chunk_overlap`). -/
def splitTextKw (text : Str) (kwargs : List (String × Nat)) : Except String (List Str) :=
  match kwargs.find? (fun kv => !(kv.1 = "chunk_size" || kv.1 = "chunk_overlap")) with
  | some kv =>
    .error ("TypeError: split_text() got an unexpected keyword argument '" ++ kv.1 ++ "'")
  | none =>
    .ok (split_text
      (orDefault ((kwargs.find? (fun kv => kv.1 = "chunk_size")).map (·.2)) 512)
      (orDefault ((kwargs.find? (fun kv => kv.1 = "chunk_overlap")).map (·.2)) 50)
      text)

/-- Digits of a natural number, for the derived id `f"{doc['id']}_{i}"`. -/
def natToStr (n : Nat) : Str := (toString n).toList

/-- Per-chunk entry construction inside `_index_documents` (embedding one
chunk at a time through `embed`, which may raise). -/
def buildEntriesGo (embed : Str → Except String (List Int)) (d : Document) :
    List (Nat × Str) → Except String (List IndexEntry)
  | [] => .ok []
  | (i, c) :: rest => do
    let v ← embed c
    let es ← buildEntriesGo embed d rest
    .ok ({ id := d.id ++ '_' :: natToStr i, values := v, page_id := d.id,
           page_title := d.title, space := d.space, url := d.url,
           chunk_index := i, text := c.take 200 } :: es)

/-- The per-document loop of `_index_documents`. Note the call
`split_text(doc["content"], chunk_size=512, overlap=50)`: the keyword
`overlap` does not name a parameter of `split_text`. -/
def indexDocsGo (embed : Str → Except String (List Int)) :
    List Document → List IndexEntry → Except String (List IndexEntry)
  | [], acc => .ok acc
  | d :: ds, acc => do
    let chunks ← splitTextKw d.content [("chunk_size", 512), ("overlap", 50)]
    let entries ← buildEntriesGo embed d (chunks.enum)
    indexDocsGo embed ds (acc ++ entries)

/-- `KnowledgeSourceMCPServer._index_documents`: returns the chunk count, the
accumulated entries, and whether the single `upsert` call was issued. -/
def indexDocuments (embed : Str → Except String (List Int)) (docs : List Document) :
    Except String (Nat × List IndexEntry × Bool) := do
  let entries ← indexDocsGo embed docs []
  .ok (entries.length, entries, !entries.isEmpty)

/-- The `metadata` dict of a vector match (fields read through `.get`). -/
structure VMeta where
  page_id : Option Str := none
  page_title : Option Str := none
  space : Option Str := none
  url : Option Str := none
  text : Option Str := none
deriving DecidableEq, Repr

/-- One element of `vector_results["matches"]`. -/
structure VectorMatch where
  metadata : VMeta := {}
  score : Option Int := none
deriving DecidableEq, Repr

/-- Result relevance tag. -/
inductive Relevance where
  | high
  | medium
deriving DecidableEq, Repr

/-- One entry of the merged result list. -/
structure ResultEntry where
  id : Str
  title : Str
  space : Str
  url : Str
  score : Int
  relevance : Relevance
  preview : Str
deriving DecidableEq, Repr

/-- The first loop of `_merge_results` (vector matches, deduplicated by
`page_id`, skipping falsy ids); returns the results and the final `seen_ids`. -/
def vectorLoop : List VectorMatch → List Str → List ResultEntry × List Str
  | [], seen => ([], seen)
  | m :: ms, seen =>
    let pid := m.metadata.page_id.getD []
    if ¬pid.isEmpty ∧ pid ∉ seen then
      ({ id := pid, title := m.metadata.page_title.getD "Untitled".toList,
         space := m.metadata.space.getD "unknown".toList,
         url := m.metadata.url.getD [], score := m.score.getD 0,
         relevance := .high,
         preview := m.metadata.text.getD [] } :: (vectorLoop ms (pid :: seen)).1,
       (vectorLoop ms (pid :: seen)).2)
    else vectorLoop ms seen

/-- The fallback loop of `_merge_results` (document-source candidates). -/
def fallbackLoop : List Document → List Str → List ResultEntry
  | [], _ => []
  | d :: ds, seen =>
    if d.id ∉ seen then
      { id := d.id, title := d.title, space := d.space, url := d.url,
        score := 1, relevance := .medium,
        preview := d.content.take 200 ++ "...".toList } :: fallbackLoop ds (d.id :: seen)
    else fallbackLoop ds seen

/-- `KnowledgeSourceMCPServer._merge_results`. -/
def mergeResults (documents : List Document) (vmatches : List VectorMatch)
    (topK : Nat) : List ResultEntry :=
  let vr := (vectorLoop (vmatches.take topK) []).1
  if vr.isEmpty then
    fallbackLoop (documents.take topK) (vectorLoop (vmatches.take topK) []).2
  else vr

/-! ## `VectorStoreClient.delete` (vector_client.py) -/

/-- A backend operation issued against the vector index. -/
inductive DelOp where
  | all (ns : String)
  | byIds (ids : List String) (ns : String)
deriving DecidableEq, Repr

/-- Outcome dict of `VectorStoreClient.delete`. -/
inductive DelResult where
  | err (msg : String)
  | success (details : String)
deriving DecidableEq, Repr

/-- `VectorStoreClient.delete`. `bAll` and `bIds` are the backend calls
(`index.delete_all` / `index.delete`), which may raise; the second component
of the result records which backend operations were invoked. Python truthiness
collapses `ids=None` and `ids=[]`, so `ids` is a plain list. -/
def vsDelete (bAll : String → Except String String)
    (bIds : List String → String → Except String String)
    (defaultNs : String) (ids : List String) (ns : Option String)
    (deleteAll : Bool) : DelResult × List DelOp :=
  if deleteAll then
    let ns' := ns.getD defaultNs
    match bAll ns' with
    | .ok r => (.success r, [.all ns'])
    | .error e => (.err e, [.all ns'])
  else if ¬ids.isEmpty then
    let ns' := ns.getD defaultNs
    match bIds ids ns' with
    | .ok r => (.success r, [.byIds ids ns'])
    | .error e => (.err e, [.byIds ids ns'])
  else (.err "Must provide ids or delete_all=True", [])

/-! ## `ConfluenceClient.get_space_pages` (confluence_client.py) -/

/-- The pagination loop of `get_space_pages` as source code: `f start` is the
upstream page list for offset `start`; `fuel` bounds the number of iterations
modelled (the Python loop is unbounded). -/
def getSpacePagesLoop (f : Nat → List α) (limit : Nat) :
    Nat → Nat → List α → List α
  | 0, _, acc => acc
  | fuel + 1, start, acc =>
    let pages := f start
    if pages.isEmpty then acc
    else if pages.length < limit then acc ++ pages
    else getSpacePagesLoop f limit fuel (start + limit) (acc ++ pages)

/-- `ConfluenceClient.get_space_pages` with page size 100, starting at 0. -/
def get_space_pages (f : Nat → List α) (fuel : Nat) : List α :=
  getSpacePagesLoop f 100 fuel 0 []

/-! ## The tool-call surface (server.py, `call_tool`) -/

/-- A JSON-like value, standing for the Python objects passed to
`json.dumps` by `call_tool`. -/
inductive JVal where
  | str (s : String)
  | num (n : Int)
  | bool (b : Bool)
  | null
  | arr (xs : List JVal)
  | obj (fields : List (String × JVal))
deriving Repr

/-- The `{"error": message}` payload shape. -/
def errObj (msg : String) : JVal := .obj [("error", .str msg)]

/-- One element of the CQL search response `results` list
(fields read through chained `.get`). -/
structure SearchItem where
  content_id : Option String := none
  content_title : Option String := none
  lastModified : Option String := none
  content_url : Option String := none
deriving Repr

/-- One element of a space's page list (`page["id"]` may be missing,
which raises `KeyError` and is swallowed by the per-page handler). -/
structure PageSummary where
  id : Option String := none
deriving Repr

/-- A space dict from `get_all_spaces`. -/
structure SpaceInfo where
  key : Option String := none
  name : Option String := none
  type : Option String := none
deriving Repr

/-- The external world of the server: every client call that can raise is an
`Except`; `nowDay`/`nowMonthLen` model `datetime.now()` for the
`get_recent_updates` date arithmetic, `mktime` the timestamp conversion. -/
structure Env where
  searchPages : String → Option String → Except String (List SearchItem)
  getPageContent : String → Except String (Option ConfluencePage)
  getAllSpaceKeys : Except String (List String)
  getAllSpaces : Except String (List SpaceInfo)
  getSpacePages : String → Except String (List PageSummary)
  getRecentPages : Int → Nat → Except String (List SearchItem)
  vectorSearch : String → Nat → Except String (List VectorMatch)
  generateEmbedding : Str → Except String (List Int)
  nowDay : Int
  nowMonthLen : Int
  mktime : Int → Int

/-- Steps 1–2 of `_search_knowledge`: turn search hits into document dicts,
skipping falsy ids, failed fetches (inner `try`/`continue`) and falsy pages. -/
def buildDocs (env : Env) : List SearchItem → List Document
  | [] => []
  | it :: rest =>
    match it.content_id with
    | none => buildDocs env rest
    | some pid =>
      if pid = "" then buildDocs env rest
      else
        match env.getPageContent pid with
        | .error _ => buildDocs env rest
        | .ok none => buildDocs env rest
        | .ok (some page) =>
          { id := pid.toList,
            title := (page.title.getD "Untitled").toList,
            content := extract_text page,
            space := (page.spaceKey.getD "unknown").toList,
            url := (page.url.getD "").toList } :: buildDocs env rest

/-- `KnowledgeSourceMCPServer._search_knowledge`. Indexing failures are
swallowed (warning only) and vector-search failures fall back to an empty
match list, exactly as in the source. -/
def searchKnowledge (env : Env) (query : String) (spaceKey : Option String)
    (topK : Nat) : Except String JVal := do
  let sr ← env.searchPages query spaceKey
  let documents := buildDocs env (sr.take 10)
  let _indexing : Except String (Nat × List IndexEntry × Bool) :=
    if ¬documents.isEmpty then indexDocuments env.generateEmbedding documents
    else .ok (0, [], false)
  let vmatches :=
    match env.vectorSearch query topK with
    | .ok ms => ms
    | .error _ => []
  let finalResults := mergeResults documents vmatches topK
  .ok (.obj [("query", .str query),
             ("results", .arr (finalResults.map (fun r => .obj
               [("id", .str (String.mk r.id)),
                ("title", .str (String.mk r.title)),
                ("score", .num r.score)]))),
             ("total_found", .num finalResults.length)])

/-- The page loop of `_sync_knowledge_source` (per-page `try`/`continue`;
a missing `"id"` key raises `KeyError`, also swallowed). -/
def buildDocsSync (env : Env) (space : String) : List PageSummary → List Document
  | [] => []
  | p :: rest =>
    match p.id with
    | none => buildDocsSync env space rest
    | some pid =>
      match env.getPageContent pid with
      | .error _ => buildDocsSync env space rest
      | .ok none => buildDocsSync env space rest
      | .ok (some page) =>
        { id := pid.toList,
          title := (page.title.getD "Untitled").toList,
          content := extract_text page,
          space := (page.spaceKey.getD space).toList,
          url := (page.url.getD "").toList } :: buildDocsSync env space rest

/-- The body of one space iteration in `_sync_knowledge_source`
(documents fetched, then indexed); any exception in it is caught by the
per-space handler. -/
def syncOneSpace (env : Env) (s : String) : Except String (Nat × Nat) := do
  let pages ← env.getSpacePages s
  let documents := buildDocsSync env s pages
  if documents.isEmpty then .ok (0, 0)
  else do
    let (cnt, _, _) ← indexDocuments env.generateEmbedding documents
    .ok (documents.length, cnt)

/-- The space loop of `_sync_knowledge_source` with its per-space
`try`/`continue`. -/
def syncSpacesGo (env : Env) : List String → Nat → Nat → Nat × Nat
  | [], td, tc => (td, tc)
  | s :: ss, td, tc =>
    match syncOneSpace env s with
    | .ok (d, c) => syncSpacesGo env ss (td + d) (tc + c)
    | .error _ => syncSpacesGo env ss td tc

/-- `KnowledgeSourceMCPServer._sync_knowledge_source`. -/
def syncKnowledgeSource (env : Env) (spaceKey : Option String)
    (fullSync : Bool) : Except String JVal := do
  let spaces ←
    match spaceKey with
    | some k => Except.ok [k]
    | none => env.getAllSpaceKeys
  let td := (syncSpacesGo env spaces 0 0).1
  let tc := (syncSpacesGo env spaces 0 0).2
  .ok (.obj [("status", .str "success"),
             ("spaces_synced", .num spaces.length),
             ("documents_indexed", .num td),
             ("chunks_created", .num tc),
             ("sync_type", .str (if fullSync then "full" else "incremental"))])

/-- `KnowledgeSourceMCPServer._get_space_info`. -/
def getSpaceInfo (env : Env) : Except String JVal := do
  let spaces ← env.getAllSpaces
  .ok (.arr (spaces.map (fun s => .obj
    [("key", .str (s.key.getD "")),
     ("name", .str (s.name.getD "")),
     ("type", .str (s.type.getD "global"))])))

/-- `KnowledgeSourceMCPServer._get_recent_updates`. The date filter
`datetime.now().replace(day=datetime.now().day - days)` raises `ValueError`
whenever the shifted day falls outside the current month. -/
def getRecentUpdates (env : Env) (days : Int) (limit : Nat) :
    Except String JVal := do
  let d := env.nowDay - days
  if 1 ≤ d ∧ d ≤ env.nowMonthLen then do
    let res ← env.getRecentPages (env.mktime d) limit
    .ok (.arr (res.map (fun r => .obj
      [("id", .str (r.content_id.getD "")),
       ("title", .str (r.content_title.getD "")),
       ("last_modified", .str (r.lastModified.getD "")),
       ("url", .str (r.content_url.getD ""))])))
  else .error "ValueError: day is out of range for month"

/-- The `arguments` dict of a tool call, with the keys the handlers read. -/
structure Arguments where
  query : Option String := none
  space_key : Option String := none
  top_k : Option Nat := none
  full_sync : Option Bool := none
  days : Option Int := none
  limit : Option Nat := none

/-- The dispatch inside the `try` of `call_tool`: the required
`arguments["query"]` raises `KeyError` when absent; optional arguments take
their `.get` defaults; an unknown tool name produces an error-shaped result
without raising. -/
def dispatch (env : Env) (name : String) (args : Arguments) : Except String JVal :=
  if name = "search_knowledge" then
    match args.query with
    | none => .error "KeyError: 'query'"
    | some q => searchKnowledge env q args.space_key (args.top_k.getD 5)
  else if name = "sync_knowledge_source" then
    syncKnowledgeSource env args.space_key (args.full_sync.getD false)
  else if name = "get_space_info" then
    getSpaceInfo env
  else if name = "get_recent_updates" then
    getRecentUpdates env (args.days.getD 7) (args.limit.getD 20)
  else .ok (errObj ("Unknown tool: " ++ name))

/-- `call_tool`: the top-level `try`/`except` turns every raised exception
into an `{"error": str(e)}` payload. -/
def call_tool (env : Env) (name : String) (args : Arguments) : JVal :=
  match dispatch env name args with
  | .ok v => v
  | .error e => errObj e

/-! ## The spec-side description of normalization (for `extract_text`) -/

/-- The normalization pipeline as worded by the spec: decode the fixed entity
set, strip all angle-bracket tag spans in one generalized pass, collapse runs
of 3+ newlines to exactly 2, collapse space/tab runs to one space, strip blank
lines; the empty string when markup is absent. Unlike the source, it has no
intermediate `"\n\n" -> "\n"` replacement and no final `.strip()`. -/
def specExtractText (page : ConfluencePage) : Str :=
  if page.storageValue.isEmpty then []
  else cleanWhitespace (untag (decodeEntities page.storageValue))

/-- A concrete upstream response: one full page (100 items) then a short page. -/
def wfPages : Nat → List Nat :=
  fun s => if s = 0 then List.range 100 else if s = 100 then [7] else []

/-- An inert environment used to instantiate universally quantified theorems
about the tool-call surface. -/
def trivEnv : Env where
  searchPages := fun _ _ => .ok []
  getPageContent := fun _ => .ok none
  getAllSpaceKeys := .ok []
  getAllSpaces := .ok []
  getSpacePages := fun _ => .ok []
  getRecentPages := fun _ _ => .ok []
  vectorSearch := fun _ _ => .ok []
  generateEmbedding := fun _ => .ok []
  nowDay := 15
  nowMonthLen := 30
  mktime := fun d => d

/-! ## Derived views used in the proofs -/

/-- Whether two equal adjacent characters `a` occur somewhere in the list
(used with `a = '\n'` for blank-line detection and `a = ' '` for uncollapsed
space runs). -/
def hasPair (a : Char) : Str → Bool
  | c :: d :: r => (c = a && d = a) || hasPair a (d :: r)
  | _ => false

/-- The maximal newline-free nonempty groups of a string: `cur` is the
current group reversed. `nlPieces` is the canonical form that `split("\n")`
followed by dropping empty lines computes. -/
def nlPiecesGo : Str → Str → List Str
  | [], cur => if cur.isEmpty then [] else [cur.reverse]
  | c :: rest, cur =>
    if c = '\n' then
      if cur.isEmpty then nlPiecesGo rest [] else cur.reverse :: nlPiecesGo rest []
    else nlPiecesGo rest (c :: cur)

/-- The newline-free nonempty groups of a string. -/
def nlPieces (t : Str) : List Str := nlPiecesGo t []

/-- The kept lines of `_clean_whitespace` in canonical form: each newline
group, space-collapsed and stripped, with empty results dropped. -/
def keptLines (t : Str) : List Str :=
  ((nlPieces t).map (fun l => stripStr (colSP l))).filter (fun l => !l.isEmpty)

/-- The normalization pipeline of the claim "tag removal plus whitespace
cleaning" (`extract_text` without the outer `.strip()`). -/
def normalizeText (t : Str) : Str := cleanWhitespace (removeHtmlTags t)

/-- "Chunk `b` begins with the last `ov` characters of chunk `a`": the claimed
overlap relation between consecutive chunks. -/
def overlapRel (ov : Nat) (a b : Str) : Prop :=
  b.take (takeRight ov a).length = takeRight ov a

instance (ov : Nat) : DecidableRel (overlapRel ov) := fun a b =>
  decidable_of_iff (b.take (takeRight ov a).length = takeRight ov a) Iff.rfl

/-! ## Theorems -/

/-- C1: `_index_documents` on the empty document list produces no chunks and
no upsert; on any non-empty document list it raises `TypeError`, because the
call `split_text(doc["content"], chunk_size=512, overlap=50)` (server.py:319)
passes the keyword `overlap` while the parameter of `split_text` is named
`chunk_overlap`. The claimed chunking/upserting behaviour is therefore never
reached for non-empty input. -/
theorem claim_C1_code_behavior :
    indexDocuments (fun _ => .ok []) [] = .ok (0, [], false) ∧
    indexDocuments (fun _ => .ok [])
      [{ id := "1".toList, title := "T".toList, content := "hello world".toList,
         space := "S".toList, url := [] }] =
      .error "TypeError: split_text() got an unexpected keyword argument 'overlap'" :=
  ⟨rfl, rfl⟩

/-- C5 counterexample: calling `delete` with both `ids=["a"]` and
`delete_all=True` does not return an `InvalidArgument`-style error and does
not refrain from deleting: the `delete_all` backend operation is performed
and a success payload is returned. -/
theorem claim_C5_counterexample :
    vsDelete (fun _ => .ok "deleted") (fun _ _ => .ok "deleted")
      "confluence-knowledge" ["a"] none true =
      (DelResult.success "deleted", [DelOp.all "confluence-knowledge"]) := rfl

/-- C5 amended: when neither `ids` nor `delete_all` is given, `delete` returns
the structured error `"Must provide ids or delete_all=True"` and performs no
backend operation; when `delete_all` is set (even together with `ids`),
`delete_all` takes precedence: exactly the delete-all backend operation on the
resolved namespace is performed and no argument error is raised. -/
theorem claim_C5_amended :
    ∀ (bAll : String → Except String String)
      (bIds : List String → String → Except String String)
      (dns : String) (ns : Option String) (ids : List String),
      vsDelete bAll bIds dns [] ns false =
        (DelResult.err "Must provide ids or delete_all=True", []) ∧
      (vsDelete bAll bIds dns ids ns true).2 = [DelOp.all (ns.getD dns)] := by
  intro bAll bIds dns ns ids
  refine ⟨rfl, ?_⟩
  simp only [vsDelete, if_pos trivial]
  cases bAll (ns.getD dns) <;> rfl

/-- The pagination loop of `get_space_pages`, generalized over the block
index `k`: if the first `n` pages are full (length not below the limit 100)
and page `n` is short, the loop with more than `n` iterations of fuel returns
the accumulator followed by the concatenation of pages `k, k+1, ..., k+n`. -/
theorem getSpacePagesLoop_spec {α : Type} (f : Nat → List α) :
    ∀ (n fuel k : Nat) (acc : List α),
      (∀ i, i < n → ¬(f (100 * (k + i))).length < 100) →
      (f (100 * (k + n))).length < 100 → n < fuel →
      getSpacePagesLoop f 100 fuel (100 * k) acc =
        acc ++ ((List.range (n + 1)).map (fun i => f (100 * (k + i)))).flatten := by
  intro n
  induction n with
  | zero =>
    intro fuel k acc _ hshort hfuel
    match fuel, hfuel with
    | fuel + 1, _ =>
      simp only [getSpacePagesLoop]
      by_cases hempty : (f (100 * k)).isEmpty = true
      · have hnil : f (100 * k) = [] := List.isEmpty_iff.mp hempty
        simp [hempty, hnil]
      · rw [if_neg hempty, if_pos (by simpa using hshort)]
        have h1 : List.range 1 = [0] := rfl
        rw [h1]
        simp
  | succ n ih =>
    intro fuel k acc hfull hshort hfuel
    match fuel, hfuel with
    | fuel + 1, _ =>
      have hfull0 : ¬(f (100 * k)).length < 100 := by
        have h0 := hfull 0 (Nat.succ_pos n)
        simpa using h0
      have hlen : 100 ≤ (f (100 * k)).length := Nat.le_of_not_lt hfull0
      have hne : ¬(f (100 * k)).isEmpty = true := by
        intro h
        rw [List.isEmpty_iff.mp h] at hlen
        simp at hlen
      simp only [getSpacePagesLoop]
      rw [if_neg hne, if_neg hfull0]
      have hstep : 100 * k + 100 = 100 * (k + 1) := by ring
      rw [hstep, ih fuel (k + 1) (acc ++ f (100 * k))
        (fun i hi => by
          have hs := hfull (i + 1) (by omega)
          have harith : k + (i + 1) = k + 1 + i := by omega
          rwa [harith] at hs)
        (by
          have harith : k + (n + 1) = k + 1 + n := by omega
          rwa [harith] at hshort)
        (by omega)]
      rw [List.append_assoc]
      congr 1
      have hrange : List.range (n + 1 + 1) = 0 :: (List.range (n + 1)).map Nat.succ :=
        List.range_succ_eq_map (n + 1)
      rw [hrange, List.map_cons, List.map_map, List.flatten_cons]
      congr 2
      apply List.map_congr_left
      intro x _
      have harith : k + (x + 1) = k + 1 + x := by omega
      simp only [Function.comp_apply]
      rw [show Nat.succ x = x + 1 from rfl, harith]

/-- C7: `get_space_pages` pages with fixed page size 100, advancing the start
offset by 100 per full page, stops exactly at the first page with fewer than
100 results, and returns the concatenation of all retrieved pages in order
(an empty final page contributes nothing). -/
theorem claim_C7 :
    ∀ (f : Nat → List Nat) (n fuel : Nat),
      (∀ i, i < n → ¬(f (100 * i)).length < 100) →
      (f (100 * n)).length < 100 → n < fuel →
      get_space_pages f fuel =
        ((List.range (n + 1)).map (fun i => f (100 * i))).flatten := by
  intro f n fuel hfull hshort hfuel
  have h := getSpacePagesLoop_spec f n fuel 0 [] (by simpa using hfull)
    (by simpa using hshort) hfuel
  simpa [get_space_pages] using h

/-- C7 witness: for the concrete response sequence `wfPages` (one full page of
100, then a single-element page), the loop terminates and returns the
concatenation of both pages. -/
theorem claim_C7_witness :
    (∀ i, i < 1 → ¬(wfPages (100 * i)).length < 100) ∧
    (wfPages (100 * 1)).length < 100 ∧ 1 < 2 ∧
    get_space_pages wfPages 2 = ((List.range 2).map (fun i => wfPages (100 * i))).flatten :=
  ⟨fun i hi => by
      have hz : i = 0 := by omega
      subst hz
      decide,
   by decide, by decide,
   claim_C7 wfPages 1 2
     (fun i hi => by
       have hz : i = 0 := by omega
       subst hz
       decide)
     (by decide) (by decide)⟩

/-- Every entry produced by the vector loop is tagged `relevance=high`. -/
theorem vectorLoop_high :
    ∀ (ms : List VectorMatch) (seen : List Str),
      ∀ e ∈ (vectorLoop ms seen).1, e.relevance = .high := by
  intro ms
  induction ms with
  | nil => intro seen e he; simp [vectorLoop] at he
  | cons m ms ih =>
    intro seen e he
    simp only [vectorLoop] at he
    split at he
    · cases he with
      | head => rfl
      | tail _ h => exact ih _ e h
    · exact ih _ e he

/-- Every entry produced by the fallback loop is tagged `relevance=medium`. -/
theorem fallbackLoop_medium :
    ∀ (ds : List Document) (seen : List Str),
      ∀ e ∈ fallbackLoop ds seen, e.relevance = .medium := by
  intro ds
  induction ds with
  | nil => intro seen e he; simp [fallbackLoop] at he
  | cons d ds ih =>
    intro seen e he
    simp only [fallbackLoop] at he
    split at he
    · cases he with
      | head => rfl
      | tail _ h => exact ih _ e h
    · exact ih _ e he

/-- The vector loop never emits an id already in `seen`, and its result is
duplicate-free on ids. -/
theorem vectorLoop_nodup :
    ∀ (ms : List VectorMatch) (seen : List Str),
      (∀ e ∈ (vectorLoop ms seen).1, e.id ∉ seen) ∧
      ((vectorLoop ms seen).1).Pairwise (fun a b => a.id ≠ b.id) := by
  intro ms
  induction ms with
  | nil => intro seen; constructor <;> simp [vectorLoop]
  | cons m ms ih =>
    intro seen
    simp only [vectorLoop]
    split
    · rename_i hcond
      constructor
      · intro e he
        cases he with
        | head => exact hcond.2
        | tail _ h =>
          have h1 := (ih ((m.metadata.page_id.getD []) :: seen)).1 e h
          intro hmem
          exact h1 (List.mem_cons_of_mem _ hmem)
      · refine List.pairwise_cons.mpr ⟨?_, (ih _).2⟩
        intro e he
        have h1 := (ih ((m.metadata.page_id.getD []) :: seen)).1 e he
        intro heq
        exact h1 (by rw [← heq]; exact List.mem_cons_self _ _)
    · exact ih seen

/-- The fallback loop never emits an id already in `seen`, and its result is
duplicate-free on ids. -/
theorem fallbackLoop_nodup :
    ∀ (ds : List Document) (seen : List Str),
      (∀ e ∈ fallbackLoop ds seen, e.id ∉ seen) ∧
      (fallbackLoop ds seen).Pairwise (fun a b => a.id ≠ b.id) := by
  intro ds
  induction ds with
  | nil => intro seen; constructor <;> simp [fallbackLoop]
  | cons d ds ih =>
    intro seen
    simp only [fallbackLoop]
    split
    · rename_i hcond
      constructor
      · intro e he
        cases he with
        | head => exact hcond
        | tail _ h =>
          have h1 := (ih (d.id :: seen)).1 e h
          intro hmem
          exact h1 (List.mem_cons_of_mem _ hmem)
      · refine List.pairwise_cons.mpr ⟨?_, (ih _).2⟩
        intro e he
        have h1 := (ih (d.id :: seen)).1 e he
        intro heq
        exact h1 (by rw [← heq]; exact List.mem_cons_self _ _)
    · exact ih seen

/-- C3: the merged result list is either entirely vector-sourced
(`relevance=high`) or entirely document-sourced (`relevance=medium`), never a
mix; the document-source fallback is used exactly when the deduplicated
vector match list is empty; and no two entries share an underlying document
id. -/
theorem claim_C3 :
    ∀ (documents : List Document) (vmatches : List VectorMatch) (topK : Nat),
      ((∀ e ∈ mergeResults documents vmatches topK, e.relevance = .high) ∨
       (∀ e ∈ mergeResults documents vmatches topK, e.relevance = .medium)) ∧
      ((vectorLoop (vmatches.take topK) []).1 ≠ [] →
        mergeResults documents vmatches topK = (vectorLoop (vmatches.take topK) []).1) ∧
      ((vectorLoop (vmatches.take topK) []).1 = [] →
        mergeResults documents vmatches topK =
          fallbackLoop (documents.take topK) (vectorLoop (vmatches.take topK) []).2) ∧
      (mergeResults documents vmatches topK).Pairwise (fun a b => a.id ≠ b.id) := by
  intro documents vmatches topK
  by_cases hvr : (vectorLoop (vmatches.take topK) []).1 = []
  · have hmr : mergeResults documents vmatches topK =
        fallbackLoop (documents.take topK) (vectorLoop (vmatches.take topK) []).2 := by
      simp [mergeResults, List.isEmpty_iff, hvr]
    refine ⟨Or.inr ?_, fun hne => absurd hvr hne, fun _ => hmr, ?_⟩
    · rw [hmr]
      intro e he
      exact fallbackLoop_medium _ _ e he
    · rw [hmr]
      exact (fallbackLoop_nodup _ _).2
  · have hmr : mergeResults documents vmatches topK =
        (vectorLoop (vmatches.take topK) []).1 := by
      simp only [mergeResults]
      rw [if_neg (by simpa [List.isEmpty_iff] using hvr)]
    refine ⟨Or.inl ?_, fun _ => hmr, fun h => absurd h hvr, ?_⟩
    · rw [hmr]
      intro e he
      exact vectorLoop_high _ _ e he
    · rw [hmr]
      exact (vectorLoop_nodup _ _).2

/-- C3 witness: with no vector matches, the merge of one concrete document
equals the document-source fallback (the empty-vector branch of the claim,
instantiated). -/
theorem claim_C3_witness :
    (vectorLoop (([] : List VectorMatch).take 5) []).1 = [] ∧
    mergeResults
      [{ id := "1".toList, title := "T".toList, content := "body".toList,
         space := "S".toList, url := [] }] [] 5 =
      fallbackLoop
        ([{ id := "1".toList, title := "T".toList, content := "body".toList,
            space := "S".toList, url := [] }].take 5)
        (vectorLoop (([] : List VectorMatch).take 5) []).2 :=
  ⟨rfl,
   (claim_C3
     [{ id := "1".toList, title := "T".toList, content := "body".toList,
        space := "S".toList, url := [] }] [] 5).2.2.1 rfl⟩

/-- C8: for every environment, tool name and argument object, `call_tool`
returns the handler's structured success payload when the dispatch succeeds
and the structured `{"error": message}` payload when any exception is raised
inside it (including `KeyError` for a missing required argument and the
`ValueError` of the recent-updates date computation); for an unknown tool
name the result is the `{"error": "Unknown tool: ..."}` payload. -/
theorem claim_C8 :
    ∀ (env : Env) (name : String) (args : Arguments),
      ((∃ v, dispatch env name args = .ok v ∧ call_tool env name args = v) ∨
       (∃ e, dispatch env name args = .error e ∧
         call_tool env name args = errObj e)) ∧
      (name ∉ ["search_knowledge", "sync_knowledge_source", "get_space_info",
               "get_recent_updates"] →
        call_tool env name args = errObj ("Unknown tool: " ++ name)) := by
  intro env name args
  constructor
  · cases h : dispatch env name args with
    | ok v => exact Or.inl ⟨v, rfl, by simp [call_tool, h]⟩
    | error e => exact Or.inr ⟨e, rfl, by simp [call_tool, h]⟩
  · intro hn
    simp only [List.mem_cons, List.mem_singleton, not_or] at hn
    obtain ⟨h1, h2, h3, h4, _⟩ := hn
    simp [call_tool, dispatch, h1, h2, h3, h4]

/-- C8 witness: an unknown tool name on a concrete environment yields the
structured unknown-tool error payload. -/
theorem claim_C8_witness :
    "bogus_tool" ∉ ["search_knowledge", "sync_knowledge_source",
                    "get_space_info", "get_recent_updates"] ∧
    call_tool trivEnv "bogus_tool" {} = errObj "Unknown tool: bogus_tool" :=
  ⟨by decide, (claim_C8 trivEnv "bogus_tool" {}).2 (by decide)⟩

/-! ### Properties of `stripStr` -/

/-- The head surviving `dropWhile` fails the predicate. -/
theorem head?_dropWhile {p : Char → Bool} :
    ∀ {l : Str} {a : Char}, (l.dropWhile p).head? = some a → p a = false := by
  intro l
  induction l with
  | nil => intro a h; simp [List.dropWhile] at h
  | cons c rest ih =>
    intro a h
    rw [List.dropWhile_cons] at h
    split at h
    · exact ih h
    · rename_i hc
      simp only [List.head?_cons, Option.some.injEq] at h
      subst h
      simpa using hc

/-- `dropTrailWs` removes a (whitespace-only) suffix. -/
theorem dropTrailWs_decomp :
    ∀ l : Str, ∃ suf, l = dropTrailWs l ++ suf ∧ ∀ c ∈ suf, pyWs c = true := by
  intro l
  induction l with
  | nil => exact ⟨[], rfl, by simp⟩
  | cons c rest ih =>
    obtain ⟨suf, hdec, hsuf⟩ := ih
    by_cases h : ((dropTrailWs rest).isEmpty && pyWs c) = true
    · have hemp : dropTrailWs rest = [] :=
        List.isEmpty_iff.mp ((Bool.and_eq_true _ _).mp h).1
      have hws : pyWs c = true := ((Bool.and_eq_true _ _).mp h).2
      refine ⟨c :: suf, ?_, ?_⟩
      · have hd : dropTrailWs (c :: rest) = [] := by
          simp only [dropTrailWs]
          rw [if_pos h]
        rw [hd, List.nil_append]
        have hrest : rest = suf := by
          rw [hdec, hemp, List.nil_append]
        rw [hrest]
      · intro x hx
        rcases List.mem_cons.mp hx with hx | hx
        · rw [hx]; exact hws
        · exact hsuf x hx
    · refine ⟨suf, ?_, hsuf⟩
      have hd : dropTrailWs (c :: rest) = c :: dropTrailWs rest := by
        simp only [dropTrailWs]
        rw [if_neg h]
      rw [hd, List.cons_append]
      exact congrArg (c :: ·) hdec

/-- The last character surviving `dropTrailWs` is not whitespace. -/
theorem getLast?_dropTrailWs :
    ∀ {l : Str} {a : Char}, (dropTrailWs l).getLast? = some a → pyWs a = false := by
  intro l
  induction l with
  | nil => intro a h; simp [dropTrailWs] at h
  | cons c rest ih =>
    intro a h
    simp only [dropTrailWs] at h
    split at h
    · simp at h
    · rename_i hcond
      rcases hrest : dropTrailWs rest with _ | ⟨d, ds⟩
      · rw [hrest] at h
        simp only [List.getLast?_singleton, Option.some.injEq] at h
        have hca : c = a := h
        by_cases hws : pyWs c = true
        · exact absurd (by rw [hrest]; simp [hws]) hcond
        · rw [← hca]
          simpa using hws
      · rw [hrest, List.getLast?_cons_cons] at h
        rw [← hrest] at h
        exact ih h

/-- The head of `dropTrailWs` is the head of the input when nonempty. -/
theorem head?_dropTrailWs {l : Str} {a : Char}
    (h : (dropTrailWs l).head? = some a) : l.head? = some a := by
  obtain ⟨suf, hdec, _⟩ := dropTrailWs_decomp l
  rw [hdec, List.head?_append, h]
  rfl

/-- Characters of `dropTrailWs l` come from `l`. -/
theorem mem_dropTrailWs {l : Str} {c : Char} (h : c ∈ dropTrailWs l) : c ∈ l := by
  obtain ⟨suf, hdec, _⟩ := dropTrailWs_decomp l
  rw [hdec]
  exact List.mem_append_left _ h

/-- The head of a stripped string is not whitespace. -/
theorem stripStr_head {s : Str} {a : Char} (h : (stripStr s).head? = some a) :
    pyWs a = false :=
  head?_dropWhile (head?_dropTrailWs h)

/-- The last character of a stripped string is not whitespace. -/
theorem stripStr_getLast {s : Str} {a : Char}
    (h : (stripStr s).getLast? = some a) : pyWs a = false :=
  getLast?_dropTrailWs h

/-- Characters of `stripStr s` come from `s`. -/
theorem mem_stripStr {s : Str} {c : Char} (h : c ∈ stripStr s) : c ∈ s := by
  have h1 : c ∈ s.dropWhile pyWs := mem_dropTrailWs h
  have h2 : s.takeWhile pyWs ++ s.dropWhile pyWs = s :=
    List.takeWhile_append_dropWhile pyWs s
  rw [← h2]
  exact List.mem_append_right _ h1

/-- `dropWhile` is the identity when the head already fails the predicate. -/
theorem dropWhile_eq_self_of_head {p : Char → Bool} {l : Str}
    (h : ∀ a, l.head? = some a → p a = false) : l.dropWhile p = l := by
  cases l with
  | nil => rfl
  | cons c rest =>
    rw [List.dropWhile_cons, if_neg]
    have hc := h c rfl
    simp [hc]

/-- `dropTrailWs` is the identity when the last character is not whitespace. -/
theorem dropTrailWs_eq_self :
    ∀ {l : Str}, (∀ a, l.getLast? = some a → pyWs a = false) → dropTrailWs l = l := by
  intro l
  induction l with
  | nil => intro _; rfl
  | cons c rest ih =>
    intro h
    have hrest : dropTrailWs rest = rest := by
      apply ih
      intro a ha
      apply h
      cases rest with
      | nil => simp at ha
      | cons d ds => rw [List.getLast?_cons_cons]; exact ha
    simp only [dropTrailWs, hrest]
    rw [if_neg]
    intro hcond
    have h1 := (Bool.and_eq_true _ _).mp hcond
    have hnil : rest = [] := List.isEmpty_iff.mp h1.1
    subst hnil
    have hc := h c (by simp)
    rw [hc] at h1
    exact absurd h1.2 (by simp)

/-- `stripStr` is the identity on strings with non-whitespace ends. -/
theorem stripStr_eq_self {l : Str}
    (hh : ∀ a, l.head? = some a → pyWs a = false)
    (hl : ∀ a, l.getLast? = some a → pyWs a = false) : stripStr l = l := by
  unfold stripStr
  rw [dropWhile_eq_self_of_head hh]
  exact dropTrailWs_eq_self hl

/-- Stripping is idempotent. -/
theorem stripStr_idem (s : Str) : stripStr (stripStr s) = stripStr s :=
  stripStr_eq_self (fun _ ha => stripStr_head ha) (fun _ ha => stripStr_getLast ha)

/-! ### Properties of `hasPair` -/

theorem hasPair_cons_cons (a c d : Char) (r : Str) :
    hasPair a (c :: d :: r) = ((c = a && d = a) || hasPair a (d :: r)) := rfl

/-- Dropping the head cannot create a pair. -/
theorem hasPair_cons_false {a c : Char} {l : Str}
    (h : hasPair a (c :: l) = false) : hasPair a l = false := by
  cases l with
  | nil => rfl
  | cons d r =>
    rw [hasPair_cons_cons] at h
    exact (Bool.or_eq_false_iff.mp h).2

/-- A pair-free list stays pair-free after removing a prefix. -/
theorem hasPair_append_right {a : Char} :
    ∀ {x y : Str}, hasPair a (x ++ y) = false → hasPair a y = false := by
  intro x
  induction x with
  | nil => intro y h; exact h
  | cons c x ih =>
    intro y h
    rw [List.cons_append] at h
    exact ih (hasPair_cons_false h)

/-- A pair-free list stays pair-free after removing a suffix. -/
theorem hasPair_append_left {a : Char} :
    ∀ {x y : Str}, hasPair a (x ++ y) = false → hasPair a x = false := by
  intro x
  induction x with
  | nil => intro y _; rfl
  | cons c x ih =>
    intro y h
    cases hx : x with
    | nil => rfl
    | cons d r =>
      subst hx
      rw [List.cons_append, List.cons_append, hasPair_cons_cons] at h
      have h2 := Bool.or_eq_false_iff.mp h
      rw [hasPair_cons_cons]
      apply Bool.or_eq_false_iff.mpr
      refine ⟨h2.1, ?_⟩
      exact ih (by rw [List.cons_append]; exact h2.2)

/-- Prepending characters different from `a` cannot create an `a`-pair. -/
theorem hasPair_append_not_mem {a : Char} :
    ∀ {x y : Str}, a ∉ x → hasPair a y = false → hasPair a (x ++ y) = false := by
  intro x
  induction x with
  | nil => intro y _ hy; exact hy
  | cons c x ih =>
    intro y hmem hy
    have hx : hasPair a (x ++ y) = false :=
      ih (fun hm => hmem (List.mem_cons_of_mem _ hm)) hy
    have hca : c ≠ a := fun hc => hmem (by rw [hc]; exact List.mem_cons_self _ _)
    cases hxy : x ++ y with
    | nil => rw [List.cons_append, hxy]; rfl
    | cons d r =>
      rw [List.cons_append, hxy, hasPair_cons_cons]
      rw [hxy] at hx
      simp [hca, hx]

/-- A list not containing `a` has no `a`-pair. -/
theorem hasPair_of_not_mem {a : Char} {l : Str} (h : a ∉ l) :
    hasPair a l = false := by
  have := @hasPair_append_not_mem a l [] h rfl
  simpa using this

/-- `stripStr` preserves pair-freeness. -/
theorem hasPair_stripStr {a : Char} {s : Str} (h : hasPair a s = false) :
    hasPair a (stripStr s) = false := by
  have h1 : hasPair a (s.dropWhile pyWs) = false := by
    have hdec : s.takeWhile pyWs ++ s.dropWhile pyWs = s :=
      List.takeWhile_append_dropWhile pyWs s
    exact hasPair_append_right (by rw [hdec]; exact h)
  obtain ⟨suf, hdec, _⟩ := dropTrailWs_decomp (s.dropWhile pyWs)
  apply @hasPair_append_left a (stripStr s) suf
  show hasPair a (dropTrailWs (s.dropWhile pyWs) ++ suf) = false
  rw [← hdec]
  exact h1

/-! ### `splitNl`, `nlPieces` and their correspondence -/

theorem splitNlP_cons_nl (rest : Str) :
    splitNlP ('\n' :: rest) = ([], (splitNlP rest).1 :: (splitNlP rest).2) := by
  simp [splitNlP]

theorem splitNlP_cons_ne {c : Char} (hc : ¬c = '\n') (rest : Str) :
    splitNlP (c :: rest) = (c :: (splitNlP rest).1, (splitNlP rest).2) := by
  simp [splitNlP, hc]

theorem nlPiecesGo_cons_nl (rest cur : Str) :
    nlPiecesGo ('\n' :: rest) cur =
      if cur.isEmpty then nlPiecesGo rest []
      else cur.reverse :: nlPiecesGo rest [] := by
  simp [nlPiecesGo]

theorem nlPiecesGo_cons_ne {c : Char} (hc : ¬c = '\n') (rest cur : Str) :
    nlPiecesGo (c :: rest) cur = nlPiecesGo rest (c :: cur) := by
  simp [nlPiecesGo, hc]

/-- Dropping the empty lines of `split("\n")` yields the newline-free groups. -/
theorem filter_splitNl_eq :
    ∀ (t cur : Str),
      (((cur.reverse ++ (splitNlP t).1) :: (splitNlP t).2).filter
        (fun l => !l.isEmpty)) = nlPiecesGo t cur := by
  intro t
  induction t with
  | nil =>
    intro cur
    cases cur with
    | nil => simp [splitNlP, nlPiecesGo]
    | cons c cs => simp [splitNlP, nlPiecesGo]
  | cons c rest ih =>
    intro cur
    by_cases hc : c = '\n'
    · subst hc
      rw [splitNlP_cons_nl, nlPiecesGo_cons_nl]
      cases cur with
      | nil =>
        simp only [List.isEmpty_nil, if_true, List.reverse_nil, List.nil_append]
        have h := ih []
        simp only [List.reverse_nil, List.nil_append] at h
        rw [← h]
        simp [List.filter_cons]
      | cons x xs =>
        simp only [List.isEmpty_cons, if_false]
        have h := ih []
        simp only [List.reverse_nil, List.nil_append] at h
        rw [← h]
        simp [List.filter_cons]
    · rw [splitNlP_cons_ne hc, nlPiecesGo_cons_ne hc]
      have h := ih (c :: cur)
      rw [← h]
      congr 2
      simp

/-- `split("\n")` with empty lines dropped equals `nlPieces`. -/
theorem filter_splitNl (t : Str) :
    (splitNl t).filter (fun l => !l.isEmpty) = nlPieces t := by
  have h := filter_splitNl_eq t []
  simpa [splitNl, nlPieces] using h

/-! ### Space collapsing distributes over lines -/

/-- `colSPGo` never crosses a newline: it maps over the `split("\n")` pieces,
with the run flag only affecting the first piece. -/
theorem splitNlP_colSPGo :
    ∀ (t : Str) (b : Bool),
      splitNlP (colSPGo t b) =
        (colSPGo (splitNlP t).1 b, ((splitNlP t).2).map colSP) := by
  intro t
  induction t with
  | nil => intro b; simp [splitNlP, colSPGo]
  | cons c rest ih =>
    intro b
    by_cases hsp : (c = ' ' || c = '\t') = true
    · have hc : ¬c = '\n' := by
        have h2 : c = ' ' ∨ c = '\t' := by simpa using hsp
        rcases h2 with h | h <;> (subst h; decide)
      rw [splitNlP_cons_ne hc]
      cases b with
      | false =>
        rw [show colSPGo (c :: rest) false = ' ' :: colSPGo rest true from by
          simp [colSPGo, hsp]]
        rw [splitNlP_cons_ne (by decide), ih true]
        rw [show colSPGo (c :: (splitNlP rest).1) false =
            ' ' :: colSPGo (splitNlP rest).1 true from by simp [colSPGo, hsp]]
      | true =>
        rw [show colSPGo (c :: rest) true = colSPGo rest true from by
          simp [colSPGo, hsp]]
        rw [ih true]
        rw [show colSPGo (c :: (splitNlP rest).1) true =
            colSPGo (splitNlP rest).1 true from by simp [colSPGo, hsp]]
    · by_cases hc : c = '\n'
      · subst hc
        rw [show colSPGo ('\n' :: rest) b = '\n' :: colSPGo rest false from by
          simp [colSPGo]]
        rw [splitNlP_cons_nl, splitNlP_cons_nl, ih false]
        simp [colSP, colSPGo]
      · rw [show colSPGo (c :: rest) b = c :: colSPGo rest false from by
          simp [colSPGo, hsp]]
        rw [splitNlP_cons_ne hc, splitNlP_cons_ne hc, ih false]
        rw [show colSPGo (c :: (splitNlP rest).1) b =
            c :: colSPGo (splitNlP rest).1 false from by simp [colSPGo, hsp]]

/-- For `f` with `f [] = []`, filtering empties after mapping is insensitive
to dropping empty inputs first. -/
theorem filter_map_filter (f : Str → Str) (hf : f [] = []) :
    ∀ l : List Str,
      ((l.map f).filter (fun x => !x.isEmpty)) =
        (((l.filter (fun x => !x.isEmpty)).map f).filter (fun x => !x.isEmpty)) := by
  intro l
  induction l with
  | nil => rfl
  | cons c l ih =>
    by_cases hc : c.isEmpty = true
    · have hnil : c = [] := List.isEmpty_iff.mp hc
      subst hnil
      simp only [List.map_cons, hf, List.filter_cons]
      simpa using ih
    · simp only [List.map_cons, List.filter_cons, hc]
      by_cases hfc : (f c).isEmpty = true
      · simp only [hfc]
        simpa [hfc] using ih
      · simp only [hfc]
        simp only [Bool.not_false, if_true, List.map_cons, List.filter_cons, hfc]
        simpa [hfc] using ih

theorem rdn_cons_cons (c d : Char) (rest : Str) :
    rdn (c :: d :: rest) =
      if c = '\n' ∧ d = '\n' then '\n' :: rdn rest else c :: rdn (d :: rest) := rfl

/-- The `"\n\n" -> "\n"` replacement does not change the newline-free groups. -/
theorem nlPiecesGo_rdn : ∀ (t cur : Str), nlPiecesGo (rdn t) cur = nlPiecesGo t cur
  | [], _ => rfl
  | [c], _ => rfl
  | c :: d :: rest, cur => by
    rw [rdn_cons_cons]
    by_cases h : c = '\n' ∧ d = '\n'
    · rw [if_pos h]
      obtain ⟨hc, hd⟩ := h
      subst hc
      subst hd
      rw [nlPiecesGo_cons_nl, nlPiecesGo_cons_nl, nlPiecesGo_rdn rest []]
      rw [nlPiecesGo_cons_nl]
      simp
    · rw [if_neg h]
      by_cases hc : c = '\n'
      · subst hc
        rw [nlPiecesGo_cons_nl, nlPiecesGo_cons_nl, nlPiecesGo_rdn (d :: rest) []]
      · rw [nlPiecesGo_cons_ne hc, nlPiecesGo_cons_ne hc]
        exact nlPiecesGo_rdn (d :: rest) (c :: cur)

/-- Collapsing long newline runs does not change the newline-free groups. -/
theorem nlPiecesGo_col3 :
    ∀ t : Str,
      (∀ cur, nlPiecesGo (col3Go t 0) cur = nlPiecesGo t cur) ∧
      (∀ k, 1 ≤ k → nlPiecesGo (col3Go t k) [] = nlPiecesGo t []) := by
  intro t
  induction t with
  | nil =>
    refine ⟨fun cur => rfl, fun k _ => ?_⟩
    rfl
  | cons c rest ih =>
    constructor
    · intro cur
      by_cases hc : c = '\n'
      · subst hc
        rw [show col3Go ('\n' :: rest) 0 = '\n' :: col3Go rest 1 from by
          simp [col3Go]]
        rw [nlPiecesGo_cons_nl, nlPiecesGo_cons_nl, ih.2 1 (by omega)]
      · rw [show col3Go (c :: rest) 0 = c :: col3Go rest 0 from by
          simp [col3Go, hc]]
        rw [nlPiecesGo_cons_ne hc, nlPiecesGo_cons_ne hc]
        exact ih.1 (c :: cur)
    · intro k hk
      by_cases hc : c = '\n'
      · subst hc
        by_cases hk2 : k < 2
        · rw [show col3Go ('\n' :: rest) k = '\n' :: col3Go rest (k + 1) from by
            simp [col3Go, hk2]]
          rw [nlPiecesGo_cons_nl, nlPiecesGo_cons_nl]
          simp only [List.isEmpty_nil, if_true]
          exact ih.2 (k + 1) (by omega)
        · rw [show col3Go ('\n' :: rest) k = col3Go rest (k + 1) from by
            simp [col3Go, hk2]]
          rw [nlPiecesGo_cons_nl]
          simp only [List.isEmpty_nil, if_true]
          exact ih.2 (k + 1) (by omega)
      · rw [show col3Go (c :: rest) k = c :: col3Go rest 0 from by
          simp [col3Go, hc]]
        rw [nlPiecesGo_cons_ne hc, nlPiecesGo_cons_ne hc]
        exact ih.1 [c]

/-- `_clean_whitespace` in canonical form: join of the space-collapsed,
stripped, nonempty newline groups. -/
theorem cleanWhitespace_eq_keptLines (t : Str) :
    cleanWhitespace t = joinNl (keptLines t) := by
  unfold cleanWhitespace keptLines
  congr 1
  have h1 : splitNl (colSP (col3 t)) = (splitNl (col3 t)).map colSP := by
    unfold splitNl colSP
    rw [splitNlP_colSPGo]
    rfl
  rw [h1, List.map_map]
  have h2 := filter_map_filter (fun l => stripStr (colSP l)) rfl (splitNl (col3 t))
  have h3 : stripStr ∘ colSP = fun l => stripStr (colSP l) := rfl
  rw [h3, h2, filter_splitNl (col3 t)]
  have h4 : nlPieces (col3 t) = nlPieces t := by
    unfold nlPieces col3
    exact (nlPiecesGo_col3 t).1 []
  rw [h4]

/-- The pre-pass `"\n\n" -> "\n"` of `_remove_html_tags` is erased by
`_clean_whitespace`. -/
theorem cleanWhitespace_rdn (t : Str) :
    cleanWhitespace (rdn t) = cleanWhitespace t := by
  rw [cleanWhitespace_eq_keptLines, cleanWhitespace_eq_keptLines]
  unfold keptLines
  have h : nlPieces (rdn t) = nlPieces t := nlPiecesGo_rdn t []
  rw [h]

/-! ### Shape of the kept lines -/

/-- Unpack membership in `keptLines`. -/
theorem keptLines_mem {t l : Str} (h : l ∈ keptLines t) :
    l ≠ [] ∧ ∃ q, q ∈ nlPieces t ∧ l = stripStr (colSP q) := by
  unfold keptLines at h
  have h1 := List.mem_filter.mp h
  obtain ⟨q, hq, hlq⟩ := List.mem_map.mp h1.1
  refine ⟨?_, q, hq, hlq.symm⟩
  intro hnil
  rw [hnil] at h1
  simp at h1

/-- Newline groups contain no newline. -/
theorem nlPiecesGo_no_nl :
    ∀ (t cur : Str), '\n' ∉ cur → ∀ l ∈ nlPiecesGo t cur, '\n' ∉ l := by
  intro t
  induction t with
  | nil =>
    intro cur hcur l hl
    by_cases hc : cur.isEmpty = true
    · simp [nlPiecesGo, hc] at hl
    · simp only [nlPiecesGo, hc, if_false, Bool.false_eq_true, List.mem_singleton] at hl
      subst hl
      simpa using hcur
  | cons c rest ih =>
    intro cur hcur l hl
    by_cases hc : c = '\n'
    · subst hc
      rw [nlPiecesGo_cons_nl] at hl
      by_cases he : cur.isEmpty = true
      · rw [if_pos he] at hl
        exact ih [] (by simp) l hl
      · rw [if_neg he] at hl
        rcases List.mem_cons.mp hl with hl | hl
        · subst hl
          simpa using hcur
        · exact ih [] (by simp) l hl
    · rw [nlPiecesGo_cons_ne hc] at hl
      refine ih (c :: cur) ?_ l hl
      intro hm
      rcases List.mem_cons.mp hm with hm | hm
      · exact hc hm.symm
      · exact hcur hm

/-- Characters produced by space collapsing come from the input or are `' '`. -/
theorem mem_colSPGo :
    ∀ (t : Str) (b : Bool) (c : Char), c ∈ colSPGo t b → c ∈ t ∨ c = ' ' := by
  intro t
  induction t with
  | nil => intro b c h; simp [colSPGo] at h
  | cons d rest ih =>
    intro b c h
    by_cases hsp : (d = ' ' || d = '\t') = true
    · cases b with
      | false =>
        rw [show colSPGo (d :: rest) false = ' ' :: colSPGo rest true from by
          simp [colSPGo, hsp]] at h
        rcases List.mem_cons.mp h with h | h
        · exact Or.inr h
        · rcases ih true c h with h | h
          · exact Or.inl (List.mem_cons_of_mem _ h)
          · exact Or.inr h
      | true =>
        rw [show colSPGo (d :: rest) true = colSPGo rest true from by
          simp [colSPGo, hsp]] at h
        rcases ih true c h with h | h
        · exact Or.inl (List.mem_cons_of_mem _ h)
        · exact Or.inr h
    · rw [show colSPGo (d :: rest) b = d :: colSPGo rest false from by
        simp [colSPGo, hsp]] at h
      rcases List.mem_cons.mp h with h | h
      · exact Or.inl (h ▸ List.mem_cons_self _ _)
      · rcases ih false c h with h | h
        · exact Or.inl (List.mem_cons_of_mem _ h)
        · exact Or.inr h

/-- Kept lines contain no newline. -/
theorem keptLines_no_nl {t l : Str} (h : l ∈ keptLines t) : '\n' ∉ l := by
  obtain ⟨_, q, hq, hlq⟩ := keptLines_mem h
  intro hm
  rw [hlq] at hm
  have h1 : '\n' ∈ colSP q := mem_stripStr hm
  rcases mem_colSPGo q false '\n' h1 with h2 | h2
  · exact nlPiecesGo_no_nl t [] (by simp) q hq h2
  · exact absurd h2 (by decide)

/-! ### Ends of `joinNl` -/

/-- `joinNl` of nonempty lines is nonempty. -/
theorem joinNl_ne_nil :
    ∀ {ls : List Str}, ls ≠ [] → (∀ l ∈ ls, l ≠ []) → joinNl ls ≠ [] := by
  intro ls
  match ls with
  | [] => intro h _; exact absurd rfl h
  | [l] =>
    intro _ hl
    simpa [joinNl] using hl l (by simp)
  | l :: l2 :: ls =>
    intro _ hl
    show l ++ '\n' :: joinNl (l2 :: ls) ≠ []
    simp

/-- The head of `joinNl` is the head of its first line. -/
theorem joinNl_head_not_ws :
    ∀ {ls : List Str},
      (∀ l ∈ ls, l ≠ [] ∧ ∀ a, l.head? = some a → pyWs a = false) →
      ∀ a, (joinNl ls).head? = some a → pyWs a = false := by
  intro ls
  match ls with
  | [] => intro _ a h; simp [joinNl] at h
  | [l] =>
    intro hl a h
    exact (hl l (by simp)).2 a h
  | l :: l2 :: ls =>
    intro hl a h
    have hll := hl l (by simp)
    rw [show joinNl (l :: l2 :: ls) = l ++ '\n' :: joinNl (l2 :: ls) from rfl] at h
    rcases hln : l with _ | ⟨c, cs⟩
    · exact absurd hln hll.1
    · rw [hln, List.cons_append, List.head?_cons, Option.some.injEq] at h
      exact hll.2 a (by rw [hln, List.head?_cons, h])

/-- The last character of `joinNl` is the last character of its last line. -/
theorem joinNl_getLast_not_ws :
    ∀ {ls : List Str},
      (∀ l ∈ ls, l ≠ [] ∧ ∀ a, l.getLast? = some a → pyWs a = false) →
      ∀ a, (joinNl ls).getLast? = some a → pyWs a = false := by
  intro ls
  match ls with
  | [] => intro _ a h; simp [joinNl] at h
  | [l] =>
    intro hl a h
    exact (hl l (by simp)).2 a h
  | l :: l2 :: ls =>
    intro hl a h
    have hrest : joinNl (l2 :: ls) ≠ [] :=
      joinNl_ne_nil (by simp) (fun x hx => (hl x (List.mem_cons_of_mem _ hx)).1)
    rw [show joinNl (l :: l2 :: ls) = l ++ '\n' :: joinNl (l2 :: ls) from rfl] at h
    rw [List.getLast?_append_of_ne_nil _ (by simp)] at h
    have h2 : (joinNl (l2 :: ls)).getLast? = some a := by
      rcases hj : joinNl (l2 :: ls) with _ | ⟨x, xs⟩
      · exact absurd hj hrest
      · rw [hj] at h
        rw [List.getLast?_cons_cons] at h
        exact h
    exact joinNl_getLast_not_ws (fun x hx => hl x (List.mem_cons_of_mem _ hx)) a h2

/-- `_clean_whitespace` output is already stripped: the final `.strip()` of
`extract_text` is a no-op. -/
theorem stripStr_cleanWhitespace (t : Str) :
    stripStr (cleanWhitespace t) = cleanWhitespace t := by
  rw [cleanWhitespace_eq_keptLines]
  apply stripStr_eq_self
  · apply joinNl_head_not_ws
    intro l hl
    obtain ⟨hne, q, _, hlq⟩ := keptLines_mem hl
    exact ⟨hne, fun a ha => stripStr_head (by rw [← hlq]; exact ha)⟩
  · apply joinNl_getLast_not_ws
    intro l hl
    obtain ⟨hne, q, _, hlq⟩ := keptLines_mem hl
    exact ⟨hne, fun a ha => stripStr_getLast (by rw [← hlq]; exact ha)⟩

/-! ### No blank lines in cleaned output -/

/-- Joining nonempty newline-free lines with single newlines produces no
two adjacent newlines, and the result does not start with a newline. -/
theorem joinNl_no_dd :
    ∀ {ls : List Str}, (∀ l ∈ ls, l ≠ [] ∧ '\n' ∉ l) →
      hasPair '\n' (joinNl ls) = false ∧
      ∀ a, (joinNl ls).head? = some a → a ≠ '\n' := by
  intro ls
  match ls with
  | [] => intro _; exact ⟨rfl, fun a h => by simp [joinNl] at h⟩
  | [l] =>
    intro hl
    refine ⟨hasPair_of_not_mem (hl l (by simp)).2, ?_⟩
    intro a h hna
    subst hna
    cases l with
    | nil => simp [joinNl] at h
    | cons c cs =>
      simp only [joinNl, List.head?_cons, Option.some.injEq] at h
      exact (hl (c :: cs) (by simp)).2 (by rw [h]; exact List.mem_cons_self _ _)
  | l :: l2 :: ls =>
    intro hl
    have ih := @joinNl_no_dd (l2 :: ls) (fun x hx => hl x (List.mem_cons_of_mem _ hx))
    have hrest : joinNl (l2 :: ls) ≠ [] :=
      joinNl_ne_nil (by simp) (fun x hx => (hl x (List.mem_cons_of_mem _ hx)).1)
    have hll := hl l (by simp)
    have hx : hasPair '\n' ('\n' :: joinNl (l2 :: ls)) = false := by
      rcases hj : joinNl (l2 :: ls) with _ | ⟨x, xs⟩
      · exact absurd hj hrest
      · have hxne : x ≠ '\n' := ih.2 x (by rw [hj]; rfl)
        have h1 : hasPair '\n' (x :: xs) = false := by rw [← hj]; exact ih.1
        rw [hasPair_cons_cons]
        simp [hxne, h1]
    refine ⟨?_, ?_⟩
    · show hasPair '\n' (l ++ '\n' :: joinNl (l2 :: ls)) = false
      exact hasPair_append_not_mem hll.2 hx
    · intro a h hna
      subst hna
      rcases hln : l with _ | ⟨c, cs⟩
      · exact absurd hln hll.1
      · rw [show joinNl (l :: l2 :: ls) = l ++ '\n' :: joinNl (l2 :: ls) from rfl,
          hln, List.cons_append, List.head?_cons, Option.some.injEq] at h
        exact hll.2 (by rw [hln, ← h]; exact List.mem_cons_self _ _)

/-- The cleaned text contains no two adjacent newlines. -/
theorem hasPair_nl_cleanWhitespace (t : Str) :
    hasPair '\n' (cleanWhitespace t) = false := by
  rw [cleanWhitespace_eq_keptLines]
  exact (joinNl_no_dd (fun l hl =>
    ⟨(keptLines_mem hl).1, keptLines_no_nl hl⟩)).1

/-- `replace("\n\n", "\n")` is the identity on texts with no adjacent
newlines. -/
theorem rdn_eq_self : ∀ {s : Str}, hasPair '\n' s = false → rdn s = s
  | [], _ => rfl
  | [c], _ => rfl
  | c :: d :: rest, h => by
    have hne : ¬(c = '\n' ∧ d = '\n') := by
      intro hcd
      rcases hcd with ⟨hc, hd⟩
      subst hc
      subst hd
      rw [hasPair_cons_cons] at h
      simp at h
    rw [rdn_cons_cons, if_neg hne]
    congr 1
    exact rdn_eq_self (hasPair_cons_false h)

/-- On a text without adjacent newlines the paragraph splitter returns the
whole text as the single piece. -/
theorem paraGo_no_dd :
    ∀ (s cur : Str), hasPair '\n' s = false →
      paraGo s cur false = [cur.reverse ++ s] := by
  intro s
  induction s with
  | nil => intro cur _; simp [paraGo]
  | cons c rest ih =>
    intro cur h
    by_cases hc : c = '\n'
    · subst hc
      have hh : ¬rest.head? = some '\n' := by
        intro hhead
        cases rest with
        | nil => simp at hhead
        | cons d ds =>
          simp only [List.head?_cons, Option.some.injEq] at hhead
          subst hhead
          rw [hasPair_cons_cons] at h
          simp at h
      rw [show paraGo ('\n' :: rest) cur false = paraGo rest ('\n' :: cur) false from by
        simp [paraGo, hh]]
      rw [ih ('\n' :: cur) (hasPair_cons_false h)]
      simp
    · rw [show paraGo (c :: rest) cur false = paraGo rest (c :: cur) false from by
        simp [paraGo, hc]]
      rw [ih (c :: cur) (hasPair_cons_false h)]
      simp

/-- C4: `extract_text` equals the spec's normalization pipeline — decode the
fixed entity set, strip all angle-bracket tag spans in one pass, collapse 3+
newline runs to exactly 2, collapse space/tab runs to one space, strip blank
lines — and returns the empty string (not an error) when the markup is
absent. (The two extra source steps, the intermediate `"\n\n" -> "\n"`
replacement and the final `.strip()`, are provably without effect.) -/
theorem claim_C4 :
    (∀ page : ConfluencePage, extract_text page = specExtractText page) ∧
    extract_text {} = [] := by
  constructor
  · intro page
    simp only [extract_text, specExtractText, removeHtmlTags]
    by_cases h : page.storageValue.isEmpty = true
    · rw [if_pos h, if_pos h]
    · rw [if_neg h, if_neg h, stripStr_cleanWhitespace, cleanWhitespace_rdn]
  · rfl

/-- C10: the normalized text returned by `extract_text` never contains two
consecutive newlines (whitespace cleaning drops every empty line), so
splitting it on blank-line boundaries yields at most one paragraph. -/
theorem claim_C10 :
    ∀ page : ConfluencePage,
      hasPair '\n' (extract_text page) = false ∧
      (splitByParagraphs (extract_text page)).length ≤ 1 := by
  intro page
  have hdd : hasPair '\n' (extract_text page) = false := by
    simp only [extract_text]
    by_cases h : page.storageValue.isEmpty = true
    · rw [if_pos h]
      rfl
    · rw [if_neg h, stripStr_cleanWhitespace]
      exact hasPair_nl_cleanWhitespace _
  refine ⟨hdd, ?_⟩
  unfold splitByParagraphs
  rw [paraGo_no_dd _ [] hdd]
  simp only [List.reverse_nil, List.nil_append, List.map_cons, List.map_nil]
  by_cases hx : (!(stripStr (extract_text page)).isEmpty) = true
  · simp [List.filter_cons, hx]
  · simp [List.filter_cons, hx]

/-! ### Identity of the markup passes on markup-free text -/

/-- A character of a `isPrefixOf`-prefix occurs in the longer list. -/
theorem mem_of_isPrefixOf :
    ∀ {pat s : Str}, pat.isPrefixOf s = true → ∀ {c : Char}, c ∈ pat → c ∈ s := by
  intro pat
  induction pat with
  | nil => intro s _ c hc; simp at hc
  | cons p ps ih =>
    intro s h c hc
    cases s with
    | nil => simp [List.isPrefixOf] at h
    | cons a t =>
      simp only [List.isPrefixOf, Bool.and_eq_true, beq_iff_eq] at h
      rcases List.mem_cons.mp hc with hc | hc
      · subst hc
        rw [h.1]
        exact List.mem_cons_self _ _
      · exact List.mem_cons_of_mem _ (ih h.2 hc)

/-- `str.replace` is the identity when some character of the pattern does not
occur in the subject. -/
theorem replaceAll_not_mem {c0 : Char} {pat rep : Str} (hc : c0 ∈ pat) :
    ∀ s : Str, c0 ∉ s → replaceAll pat rep s = s := by
  intro s
  induction s with
  | nil =>
    intro _
    rw [replaceAll, dif_neg]
    rintro ⟨hp, hpre⟩
    cases pat with
    | nil => exact hp rfl
    | cons p ps => simp [List.isPrefixOf] at hpre
  | cons c t ih =>
    intro hmem
    rw [replaceAll, dif_neg]
    · show c :: replaceAll pat rep t = c :: t
      rw [ih (fun hm => hmem (List.mem_cons_of_mem _ hm))]
    · rintro ⟨_, hpre⟩
      exact hmem (mem_of_isPrefixOf hpre hc)

/-- Entity decoding is the identity on texts without `&`. -/
theorem decodeEntities_eq_self {s : Str} (h : '&' ∉ s) : decodeEntities s = s := by
  unfold decodeEntities
  rw [replaceAll_not_mem (by decide) s h, replaceAll_not_mem (by decide) s h,
    replaceAll_not_mem (by decide) s h, replaceAll_not_mem (by decide) s h,
    replaceAll_not_mem (by decide) s h, replaceAll_not_mem (by decide) s h]

/-- Tag stripping is the identity on texts without `<`. -/
theorem untag_eq_self : ∀ {s : Str}, '<' ∉ s → untag s = s := by
  intro s
  induction s with
  | nil => intro _; rfl
  | cons c rest ih =>
    intro h
    have hc : ¬c = '<' := fun hc => h (hc ▸ List.mem_cons_self _ _)
    show untagGo (c :: rest) none = c :: rest
    rw [show untagGo (c :: rest) none = c :: untagGo rest none from by
      simp [untagGo, hc]]
    have := ih (fun hm => h (List.mem_cons_of_mem _ hm))
    rw [show untagGo rest none = untag rest from rfl, this]

/-- Characters of `rdn t` occur in `t`. -/
theorem mem_rdn : ∀ {t : Str} {c : Char}, c ∈ rdn t → c ∈ t
  | [], _, h => h
  | [_], _, h => h
  | a :: d :: rest, c, h => by
    rw [rdn_cons_cons] at h
    by_cases hcd : a = '\n' ∧ d = '\n'
    · rw [if_pos hcd] at h
      rcases List.mem_cons.mp h with h | h
      · rw [h, hcd.1]
        exact List.mem_cons_self _ _
      · exact List.mem_cons_of_mem _ (List.mem_cons_of_mem _ (mem_rdn h))
    · rw [if_neg hcd] at h
      rcases List.mem_cons.mp h with h | h
      · rw [h]
        exact List.mem_cons_self _ _
      · exact List.mem_cons_of_mem _ (mem_rdn h)

/-- Characters of a newline group occur in the scanned text or the carry. -/
theorem mem_nlPiecesGo :
    ∀ (t cur l : Str), l ∈ nlPiecesGo t cur → ∀ c ∈ l, c ∈ t ∨ c ∈ cur := by
  intro t
  induction t with
  | nil =>
    intro cur l hl c hc
    by_cases he : cur.isEmpty = true
    · simp [nlPiecesGo, he] at hl
    · simp only [nlPiecesGo, he, Bool.false_eq_true, if_false,
        List.mem_singleton] at hl
      subst hl
      exact Or.inr (List.mem_reverse.mp hc)
  | cons d rest ih =>
    intro cur l hl c hc
    by_cases hd : d = '\n'
    · subst hd
      rw [nlPiecesGo_cons_nl] at hl
      by_cases he : cur.isEmpty = true
      · rw [if_pos he] at hl
        rcases ih [] l hl c hc with h | h
        · exact Or.inl (List.mem_cons_of_mem _ h)
        · simp at h
      · rw [if_neg he] at hl
        rcases List.mem_cons.mp hl with hl | hl
        · subst hl
          exact Or.inr (List.mem_reverse.mp hc)
        · rcases ih [] l hl c hc with h | h
          · exact Or.inl (List.mem_cons_of_mem _ h)
          · simp at h
    · rw [nlPiecesGo_cons_ne hd] at hl
      rcases ih (d :: cur) l hl c hc with h | h
      · exact Or.inl (List.mem_cons_of_mem _ h)
      · rcases List.mem_cons.mp h with h | h
        · exact Or.inl (h ▸ List.mem_cons_self _ _)
        · exact Or.inr h

/-- Characters of `joinNl` come from the lines or are the newline. -/
theorem mem_joinNl :
    ∀ {ls : List Str} {c : Char}, c ∈ joinNl ls →
      (∃ l ∈ ls, c ∈ l) ∨ c = '\n' := by
  intro ls
  match ls with
  | [] => intro c h; simp [joinNl] at h
  | [l] => intro c h; exact Or.inl ⟨l, by simp, h⟩
  | l :: l2 :: ls =>
    intro c h
    rw [show joinNl (l :: l2 :: ls) = l ++ '\n' :: joinNl (l2 :: ls) from rfl] at h
    rcases List.mem_append.mp h with h | h
    · exact Or.inl ⟨l, by simp, h⟩
    · rcases List.mem_cons.mp h with h | h
      · exact Or.inr h
      · rcases mem_joinNl h with ⟨x, hx, hcx⟩ | h
        · exact Or.inl ⟨x, List.mem_cons_of_mem _ hx, hcx⟩
        · exact Or.inr h

/-- Characters of `_clean_whitespace` output come from the input, or are a
space or a newline introduced by collapsing/joining. -/
theorem mem_cleanWhitespace {t : Str} {c : Char} (h : c ∈ cleanWhitespace t) :
    c ∈ t ∨ c = ' ' ∨ c = '\n' := by
  rw [cleanWhitespace_eq_keptLines] at h
  rcases mem_joinNl h with ⟨l, hl, hcl⟩ | h
  · obtain ⟨_, q, hq, hlq⟩ := keptLines_mem hl
    rw [hlq] at hcl
    have h1 : c ∈ colSP q := mem_stripStr hcl
    rcases mem_colSPGo q false c h1 with h2 | h2
    · rcases mem_nlPiecesGo t [] q hq c h2 with h3 | h3
      · exact Or.inl h3
      · simp at h3
    · exact Or.inr (Or.inl h2)
  · exact Or.inr (Or.inr h)

/-! ### Idempotence of `_clean_whitespace` -/

/-- Scanning a newline-free block just accumulates it into the carry. -/
theorem nlPiecesGo_append_no_nl :
    ∀ {l : Str}, '\n' ∉ l → ∀ (X cur : Str),
      nlPiecesGo (l ++ X) cur = nlPiecesGo X (l.reverse ++ cur) := by
  intro l
  induction l with
  | nil => intro _ X cur; simp
  | cons c l ih =>
    intro h X cur
    have hc : ¬c = '\n' := fun hc => h (hc ▸ List.mem_cons_self _ _)
    rw [List.cons_append, nlPiecesGo_cons_ne hc,
      ih (fun hm => h (List.mem_cons_of_mem _ hm)) X (c :: cur)]
    congr 1
    simp

/-- `nlPieces` recovers the lines of a newline-joined list of nonempty
newline-free lines. -/
theorem nlPieces_joinNl :
    ∀ {ls : List Str}, (∀ l ∈ ls, l ≠ [] ∧ '\n' ∉ l) →
      nlPieces (joinNl ls) = ls := by
  intro ls
  match ls with
  | [] => intro _; rfl
  | [l] =>
    intro hl
    have hll := hl l (by simp)
    have h1 := nlPiecesGo_append_no_nl hll.2 [] []
    rw [List.append_nil] at h1
    unfold nlPieces
    show nlPiecesGo (joinNl [l]) [] = [l]
    rw [show joinNl [l] = l from rfl, h1]
    have hrev : ¬(l.reverse ++ []).isEmpty = true := by
      simp [List.isEmpty_iff, hll.1]
    simp only [nlPiecesGo, hrev, Bool.false_eq_true, if_false]
    simp
  | l :: l2 :: ls =>
    intro hl
    have hll := hl l (by simp)
    unfold nlPieces
    rw [show joinNl (l :: l2 :: ls) = l ++ '\n' :: joinNl (l2 :: ls) from rfl]
    rw [nlPiecesGo_append_no_nl hll.2 ('\n' :: joinNl (l2 :: ls)) []]
    rw [nlPiecesGo_cons_nl]
    have hrev : ¬(l.reverse ++ []).isEmpty = true := by
      simp [List.isEmpty_iff, hll.1]
    rw [if_neg hrev]
    have ih := @nlPieces_joinNl (l2 :: ls)
      (fun x hx => hl x (List.mem_cons_of_mem _ hx))
    unfold nlPieces at ih
    rw [ih]
    simp

/-- Space collapsing yields no tab, no adjacent spaces, and (in run mode) no
leading space. -/
theorem colSPGo_collapsed :
    ∀ t : Str,
      (hasPair ' ' (colSPGo t false) = false ∧ hasPair ' ' (colSPGo t true) = false) ∧
      ('\t' ∉ colSPGo t false ∧ '\t' ∉ colSPGo t true) ∧
      (∀ a, (colSPGo t true).head? = some a → a ≠ ' ') := by
  intro t
  induction t with
  | nil => refine ⟨⟨rfl, rfl⟩, ⟨by simp [colSPGo], by simp [colSPGo]⟩, ?_⟩
           intro a h
           simp [colSPGo] at h
  | cons c rest ih =>
    by_cases hsp : (c = ' ' || c = '\t') = true
    · have hf : colSPGo (c :: rest) false = ' ' :: colSPGo rest true := by
        simp [colSPGo, hsp]
      have ht : colSPGo (c :: rest) true = colSPGo rest true := by
        simp [colSPGo, hsp]
      have hpair : hasPair ' ' (' ' :: colSPGo rest true) = false := by
        rcases hX : colSPGo rest true with _ | ⟨x, xs⟩
        · rfl
        · rw [hasPair_cons_cons]
          have hxne : x ≠ ' ' := ih.2.2 x (by rw [hX]; rfl)
          have h1 : hasPair ' ' (x :: xs) = false := by rw [← hX]; exact ih.1.2
          simp [hxne, h1]
      refine ⟨⟨by rw [hf]; exact hpair, by rw [ht]; exact ih.1.2⟩,
              ⟨?_, by rw [ht]; exact ih.2.1.2⟩,
              fun a h => by rw [ht] at h; exact ih.2.2 a h⟩
      rw [hf]
      intro hm
      rcases List.mem_cons.mp hm with hm | hm
      · exact absurd hm (by decide)
      · exact ih.2.1.2 hm
    · have hb : ∀ b, colSPGo (c :: rest) b = c :: colSPGo rest false := by
        intro b
        simp [colSPGo, hsp]
      have hcsp : c ≠ ' ' := by
        intro hc
        subst hc
        simp at hsp
      have hctab : c ≠ '\t' := by
        intro hc
        subst hc
        simp at hsp
      have hpair : hasPair ' ' (c :: colSPGo rest false) = false := by
        rcases hX : colSPGo rest false with _ | ⟨x, xs⟩
        · rfl
        · rw [hasPair_cons_cons]
          have h1 : hasPair ' ' (x :: xs) = false := by rw [← hX]; exact ih.1.1
          simp [hcsp, h1]
      have htab : '\t' ∉ c :: colSPGo rest false := by
        intro hm
        rcases List.mem_cons.mp hm with hm | hm
        · exact hctab hm.symm
        · exact ih.2.1.1 hm
      refine ⟨⟨by rw [hb]; exact hpair, by rw [hb]; exact hpair⟩,
              ⟨by rw [hb]; exact htab, by rw [hb]; exact htab⟩,
              fun a h => ?_⟩
      rw [hb, List.head?_cons, Option.some.injEq] at h
      rw [← h]
      exact hcsp

/-- Space collapsing is the identity on tab-free texts with no adjacent
spaces (and, in run mode, no leading space). -/
theorem colSPGo_eq_self :
    ∀ t : Str,
      ('\t' ∉ t → hasPair ' ' t = false → colSPGo t false = t) ∧
      ('\t' ∉ t → hasPair ' ' t = false →
        (∀ a, t.head? = some a → a ≠ ' ') → colSPGo t true = t) := by
  intro t
  induction t with
  | nil => exact ⟨fun _ _ => rfl, fun _ _ _ => rfl⟩
  | cons c rest ih =>
    constructor
    · intro htab hpair
      by_cases hc : c = ' '
      · subst hc
        rw [show colSPGo (' ' :: rest) false = ' ' :: colSPGo rest true from by
          simp [colSPGo]]
        congr 1
        apply ih.2 (fun hm => htab (List.mem_cons_of_mem _ hm))
          (hasPair_cons_false hpair)
        intro a ha hsp
        subst hsp
        cases rest with
        | nil => simp at ha
        | cons x xs =>
          simp only [List.head?_cons, Option.some.injEq] at ha
          rw [hasPair_cons_cons] at hpair
          rw [ha] at hpair
          simp at hpair
      · have hct : ¬(c = ' ' || c = '\t') = true := by
          have hctab : c ≠ '\t' := fun h => htab (h ▸ List.mem_cons_self _ _)
          simp [hc, hctab]
        rw [show colSPGo (c :: rest) false = c :: colSPGo rest false from by
          simp [colSPGo, hct]]
        congr 1
        exact ih.1 (fun hm => htab (List.mem_cons_of_mem _ hm))
          (hasPair_cons_false hpair)
    · intro htab hpair hhead
      have hc : c ≠ ' ' := fun h => hhead c rfl h
      have hctab : c ≠ '\t' := fun h => htab (h ▸ List.mem_cons_self _ _)
      have hct : ¬(c = ' ' || c = '\t') = true := by simp [hc, hctab]
      rw [show colSPGo (c :: rest) true = c :: colSPGo rest false from by
        simp [colSPGo, hct]]
      congr 1
      exact ih.1 (fun hm => htab (List.mem_cons_of_mem _ hm))
        (hasPair_cons_false hpair)

/-- Each kept line is a fixed point of collapsing-and-stripping. -/
theorem keptLines_fixed {t l : Str} (h : l ∈ keptLines t) :
    stripStr (colSP l) = l := by
  obtain ⟨_, q, _, hlq⟩ := keptLines_mem h
  have htab : '\t' ∉ l := by
    rw [hlq]
    intro hm
    exact (colSPGo_collapsed q).2.1.1 (mem_stripStr hm)
  have hpair : hasPair ' ' l = false := by
    rw [hlq]
    exact hasPair_stripStr (colSPGo_collapsed q).1.1
  have hcol : colSP l = l := (colSPGo_eq_self l).1 htab hpair
  rw [hcol, hlq]
  exact stripStr_idem _

/-- `_clean_whitespace` is idempotent. -/
theorem cleanWhitespace_idem (t : Str) :
    cleanWhitespace (cleanWhitespace t) = cleanWhitespace t := by
  have h1 : nlPieces (cleanWhitespace t) = keptLines t := by
    rw [cleanWhitespace_eq_keptLines t]
    exact nlPieces_joinNl (fun l hl => ⟨(keptLines_mem hl).1, keptLines_no_nl hl⟩)
  have h2 : keptLines (cleanWhitespace t) = keptLines t := by
    show ((nlPieces (cleanWhitespace t)).map (fun l => stripStr (colSP l))).filter
        (fun l => !l.isEmpty) = keptLines t
    rw [h1]
    rw [List.map_congr_left (fun l hl => keptLines_fixed hl)]
    rw [show List.map (fun l : Str => l) (keptLines t) = keptLines t from List.map_id' _]
    exact List.filter_eq_self.mpr (fun l hl => by
      simpa using (keptLines_mem hl).1)
  rw [cleanWhitespace_eq_keptLines (cleanWhitespace t), h2,
    ← cleanWhitespace_eq_keptLines t]

/-- C9: on markup-free text (no `&`, no `<`), tag removal plus whitespace
cleaning is idempotent: `normalize(normalize(t)) = normalize(t)`. -/
theorem claim_C9 :
    ∀ t : Str, '&' ∉ t → '<' ∉ t →
      normalizeText (normalizeText t) = normalizeText t := by
  intro t hamp hlt
  have hrm : removeHtmlTags t = rdn t := by
    unfold removeHtmlTags
    rw [decodeEntities_eq_self hamp, untag_eq_self hlt]
  have h1 : normalizeText t = cleanWhitespace (rdn t) := by
    unfold normalizeText
    rw [hrm]
  have hamp2 : '&' ∉ normalizeText t := by
    rw [h1]
    intro hm
    rcases mem_cleanWhitespace hm with h | h | h
    · exact hamp (mem_rdn h)
    · exact absurd h (by decide)
    · exact absurd h (by decide)
  have hlt2 : '<' ∉ normalizeText t := by
    rw [h1]
    intro hm
    rcases mem_cleanWhitespace hm with h | h | h
    · exact hlt (mem_rdn h)
    · exact absurd h (by decide)
    · exact absurd h (by decide)
  have hrm2 : removeHtmlTags (normalizeText t) = rdn (normalizeText t) := by
    unfold removeHtmlTags
    rw [decodeEntities_eq_self hamp2, untag_eq_self hlt2]
  have h2 : rdn (normalizeText t) = normalizeText t := by
    apply rdn_eq_self
    rw [h1]
    exact hasPair_nl_cleanWhitespace (rdn t)
  show cleanWhitespace (removeHtmlTags (normalizeText t)) = normalizeText t
  rw [hrm2, h2, h1]
  exact cleanWhitespace_idem (rdn t)

/-- C9 witness: a concrete markup-free text with messy whitespace is
normalized to a fixed point. -/
theorem claim_C9_witness :
    '&' ∉ "a  b\n\n\n\tc ".toList ∧ '<' ∉ "a  b\n\n\n\tc ".toList ∧
    normalizeText (normalizeText "a  b\n\n\n\tc ".toList) =
      normalizeText "a  b\n\n\n\tc ".toList :=
  ⟨by decide, by decide, claim_C9 _ (by decide) (by decide)⟩

/-! ### Segmentation bounds -/

/-- Elements of `_split_by_paragraphs` are stripped and nonempty. -/
theorem splitByParagraphs_mem {t p : Str} (h : p ∈ splitByParagraphs t) :
    stripStr p = p ∧ p ≠ [] := by
  unfold splitByParagraphs at h
  have h1 := List.mem_filter.mp h
  obtain ⟨q, _, hpq⟩ := List.mem_map.mp h1.1
  refine ⟨by rw [← hpq]; exact stripStr_idem q, ?_⟩
  intro h0
  rw [h0] at h1
  simp at h1

/-- Elements of `_split_by_sentences` are stripped and nonempty. -/
theorem splitBySentences_mem {t s : Str} (h : s ∈ splitBySentences t) :
    stripStr s = s ∧ s ≠ [] := by
  unfold splitBySentences at h
  have h1 := List.mem_filter.mp h
  obtain ⟨q, _, hpq⟩ := List.mem_map.mp h1.1
  refine ⟨by rw [← hpq]; exact stripStr_idem q, ?_⟩
  intro h0
  rw [h0] at h1
  simp at h1

/-- `s[-n:]` has at most `n` characters. -/
theorem takeRight_length_le (n : Nat) (l : Str) : (takeRight n l).length ≤ n := by
  unfold takeRight
  rw [List.length_drop]
  omega

/-- Invariant of the sentence-accumulation loop: every produced chunk is
within the bound or is a single (oversize) sentence of the paragraph. -/
theorem splitLongLoop_sound (cs : Nat) (p : Str) :
    ∀ (sents acc : List Str),
      (∀ s ∈ sents, s ∈ splitBySentences p) →
      (∀ c ∈ acc, c.length ≤ cs ∨ (cs < c.length ∧ c ∈ splitBySentences p)) →
      ∀ c ∈ splitLongLoop cs sents acc,
        c.length ≤ cs ∨ (cs < c.length ∧ c ∈ splitBySentences p) := by
  intro sents
  induction sents with
  | nil =>
    intro acc _ hacc c hc
    exact hacc c hc
  | cons s ss ih =>
    intro acc hmem hacc c hc
    have hs := hmem s (by simp)
    have hstrip : stripStr s = s := (splitBySentences_mem hs).1
    cases acc with
    | nil =>
      simp only [splitLongLoop, hstrip] at hc
      refine ih [s] (fun x hx => hmem x (List.mem_cons_of_mem _ hx)) ?_ c hc
      intro x hx
      have hxs : x = s := List.mem_singleton.mp hx
      subst hxs
      by_cases hlen : x.length ≤ cs
      · exact Or.inl hlen
      · exact Or.inr ⟨by omega, hs⟩
    | cons a0 acc' =>
      simp only [splitLongLoop, hstrip] at hc
      split at hc
      · refine ih _ (fun x hx => hmem x (List.mem_cons_of_mem _ hx)) ?_ c hc
        intro x hx
        have hx' : x ∈ (a0 :: acc') ++ [s] := by simpa using hx
        rcases List.mem_append.mp hx' with hx2 | hx2
        · exact hacc x hx2
        · have hxs : x = s := List.mem_singleton.mp hx2
          subst hxs
          by_cases hlen : x.length ≤ cs
          · exact Or.inl hlen
          · exact Or.inr ⟨by omega, hs⟩
      · rename_i hcond
        refine ih _ (fun x hx => hmem x (List.mem_cons_of_mem _ hx)) ?_ c hc
        intro x hx
        rcases List.mem_append.mp hx with hx2 | hx2
        · exact hacc x ((List.dropLast_sublist _).subset hx2)
        · have hxs := List.mem_singleton.mp hx2
          subst hxs
          refine Or.inl ?_
          rw [List.length_append, List.length_cons]
          omega

/-- Length bound of an overlap-seeded current chunk. -/
theorem curSeed_length_le (cs ov : Nat) (p : Str) (hp : p.length ≤ cs)
    (L : List Str) (g : Prop) [Decidable g] :
    (if g then takeRight ov (L.getLastD []) ++ ' ' :: p else p).length ≤
      cs + ov + 1 := by
  split
  · rw [List.length_append, List.length_cons]
    have h1 := takeRight_length_le ov (L.getLastD [])
    omega
  · omega

/-- Invariant of the paragraph loop: every chunk is within
`chunkSize + overlap + 1`, or is a single sentence longer than `chunkSize`
taken from one of the text's paragraphs. -/
theorem splitTextLoop_sound (cs ov : Nat) (text : Str) :
    ∀ (ps chunks : List Str) (cur : Str),
      (∀ p ∈ ps, p ∈ splitByParagraphs text) →
      (∀ c ∈ chunks, c.length ≤ cs + ov + 1 ∨
        (cs < c.length ∧ ∃ p ∈ splitByParagraphs text, c ∈ splitBySentences p)) →
      cur.length ≤ cs + ov + 1 →
      ∀ c ∈ splitTextLoop cs ov ps chunks cur,
        c.length ≤ cs + ov + 1 ∨
        (cs < c.length ∧ ∃ p ∈ splitByParagraphs text, c ∈ splitBySentences p) := by
  intro ps
  induction ps with
  | nil =>
    intro chunks cur _ hchunks hcur c hc
    simp only [splitTextLoop] at hc
    split at hc
    · exact hchunks c hc
    · rcases List.mem_append.mp hc with hc | hc
      · exact hchunks c hc
      · have hcc := List.mem_singleton.mp hc
        subst hcc
        exact Or.inl hcur
  | cons p ps ih =>
    intro chunks cur hps hchunks hcur c hc
    have hp := hps p (by simp)
    have hstrip : stripStr p = p := (splitByParagraphs_mem hp).1
    simp only [splitTextLoop, hstrip] at hc
    by_cases hlong : cs < p.length
    · rw [if_pos hlong] at hc
      refine ih _ [] (fun x hx => hps x (List.mem_cons_of_mem _ hx)) ?_ (by simp) c hc
      intro x hx
      rcases List.mem_append.mp hx with hx | hx
      · split at hx
        · exact hchunks x hx
        · rcases List.mem_append.mp hx with hx | hx
          · exact hchunks x hx
          · have hxc := List.mem_singleton.mp hx
            subst hxc
            exact Or.inl hcur
      · have hq := splitLongLoop_sound cs p (splitBySentences p) []
          (fun s hs => hs) (by simp) x hx
        rcases hq with hq | hq
        · exact Or.inl (by omega)
        · exact Or.inr ⟨hq.1, p, hp, hq.2⟩
    · rw [if_neg hlong] at hc
      by_cases hover : cs < cur.length + p.length + 2
      · rw [if_pos hover] at hc
        refine ih _ _ (fun x hx => hps x (List.mem_cons_of_mem _ hx)) ?_ ?_ c hc
        · intro x hx
          split at hx
          · exact hchunks x hx
          · rcases List.mem_append.mp hx with hx | hx
            · exact hchunks x hx
            · have hxc := List.mem_singleton.mp hx
              subst hxc
              exact Or.inl hcur
        · exact curSeed_length_le cs ov p (by omega) _ _
      · rw [if_neg hover] at hc
        refine ih _ _ (fun x hx => hps x (List.mem_cons_of_mem _ hx)) hchunks ?_ c hc
        split
        · omega
        · rw [List.length_append, List.length_cons, List.length_cons]
          omega

/-- C2 counterexample: with `chunkSize=4`, `overlap=3` and the text
`"a b.\n\ncc"`, the chunk `" b. cc"` (formed by the overlap seed) has length
6 > 4 yet is not a single sentence of any paragraph: the claimed bound
"`≤ chunkSize` or a single oversize sentence" fails. -/
theorem claim_C2_counterexample :
    " b. cc".toList ∈ split_text 4 3 "a b.\n\ncc".toList ∧
    ¬(" b. cc".toList.length ≤ 4 ∨
      (4 < " b. cc".toList.length ∧
        ∃ p ∈ splitByParagraphs "a b.\n\ncc".toList,
          " b. cc".toList ∈ splitBySentences p)) := by
  constructor
  · decide
  · decide

/-- C2 amended: every chunk produced by `split_text` has length at most
`chunkSize + overlap + 1` (the overlap seed plus separator can exceed the
plain bound by at most `overlap + 1`), or else the chunk is a single sentence
of one of the text's paragraphs whose own length exceeds `chunkSize` — a
sentence is never split across chunks. -/
theorem claim_C2_amended :
    ∀ (text : Str) (cs ov : Nat), ∀ c ∈ split_text cs ov text,
      c.length ≤ cs + ov + 1 ∨
      (cs < c.length ∧ ∃ p ∈ splitByParagraphs text, c ∈ splitBySentences p) := by
  intro text cs ov c hc
  unfold split_text at hc
  split at hc
  · simp at hc
  · have hc2 : c ∈ (if (splitByParagraphs text).isEmpty = true then []
        else splitTextLoop cs ov (splitByParagraphs text) [] []) := hc
    split at hc2
    · simp at hc2
    · exact splitTextLoop_sound cs ov text _ [] [] (fun p hp => hp)
        (by simp) (by simp) c hc2

/-- C2 witness: the amended bound holds at the counterexample's input
(`" b. cc"` has length 6 ≤ 4 + 3 + 1). -/
theorem claim_C2_witness :
    " b. cc".toList ∈ split_text 4 3 "a b.\n\ncc".toList ∧
    (" b. cc".toList.length ≤ 4 + 3 + 1 ∨
      (4 < " b. cc".toList.length ∧
        ∃ p ∈ splitByParagraphs "a b.\n\ncc".toList,
          " b. cc".toList ∈ splitBySentences p)) :=
  ⟨by decide, claim_C2_amended "a b.\n\ncc".toList 4 3 _ (by decide)⟩

/-! ### Overlap chaining -/

/-- A chunk seeded with the overlap text of `a` is `overlapRel`-related to `a`. -/
theorem overlapRel_seed (ov : Nat) (a rest : Str) :
    overlapRel ov a (takeRight ov a ++ rest) := by
  unfold overlapRel
  exact List.take_left _ _

/-- Extending the successor chunk preserves the overlap relation. -/
theorem overlapRel_append {ov : Nat} {a b : Str} (x : Str)
    (h : overlapRel ov a b) : overlapRel ov a (b ++ x) := by
  unfold overlapRel at h ⊢
  have hlen : (takeRight ov a).length ≤ b.length := by
    have h1 : (b.take (takeRight ov a).length).length = (takeRight ov a).length := by
      rw [h]
    rw [List.length_take] at h1
    omega
  rw [List.take_append_of_le_length hlen]
  exact h

/-- The last element of `l ++ [a]` (with default) is `a`. -/
theorem getLastD_concat_eq (l : List Str) (a dflt : Str) :
    (l ++ [a]).getLastD dflt = a := by
  simp [List.getLastD_eq_getLast?]

/-- Invariant of the paragraph loop when no paragraph exceeds `chunkSize`:
starting from an overlap-chained chunk list (with the pending chunk counted),
the loop yields an overlap-chained chunk list. -/
theorem splitTextLoop_chain (cs ov : Nat) (text : Str) (hov : 0 < ov) :
    ∀ (ps chunks : List Str) (cur : Str),
      (∀ p ∈ ps, p ∈ splitByParagraphs text ∧ p.length ≤ cs) →
      List.Chain' (overlapRel ov)
        (chunks ++ (if cur.isEmpty then [] else [cur])) →
      (cur.isEmpty = true → chunks = []) →
      List.Chain' (overlapRel ov) (splitTextLoop cs ov ps chunks cur) := by
  intro ps
  induction ps with
  | nil =>
    intro chunks cur _ hchain hemp
    simp only [splitTextLoop]
    by_cases hce : cur.isEmpty = true
    · rw [if_pos hce]
      rw [if_pos hce] at hchain
      simpa using hchain
    · rw [if_neg hce]
      rw [if_neg hce] at hchain
      exact hchain
  | cons p ps ih =>
    intro chunks cur hps hchain hemp
    have hp := (hps p (by simp)).1
    have hple := (hps p (by simp)).2
    have hstrip : stripStr p = p := (splitByParagraphs_mem hp).1
    have hpne : p ≠ [] := (splitByParagraphs_mem hp).2
    have hpe : ¬p.isEmpty = true := by simpa [List.isEmpty_iff] using hpne
    simp only [splitTextLoop, hstrip]
    rw [if_neg (by omega : ¬cs < p.length)]
    by_cases hover : cs < cur.length + p.length + 2
    · rw [if_pos hover]
      by_cases hce : cur.isEmpty = true
      · have hch : chunks = [] := hemp hce
        subst hch
        rw [if_pos hce]
        rw [if_neg (by simp)]
        apply ih [] p (fun x hx => hps x (List.mem_cons_of_mem _ hx))
        · rw [if_neg hpe]
          simp
        · intro h
          exact absurd h hpe
      · rw [if_neg hce]
        rw [if_pos ⟨hov, by simp⟩]
        rw [getLastD_concat_eq]
        apply ih (chunks ++ [cur]) _ (fun x hx => hps x (List.mem_cons_of_mem _ hx))
        · rw [if_neg (by simp)]
          rw [if_neg hce] at hchain
          apply List.chain'_append.mpr
          refine ⟨hchain, by simp, ?_⟩
          intro x hx y hy
          have hxl : cur = x := by
            rw [List.getLast?_concat] at hx
            simpa using hx
          have hyl : takeRight ov cur ++ ' ' :: p = y := by simpa using hy
          subst hxl
          subst hyl
          exact overlapRel_seed ov cur (' ' :: p)
        · intro h
          simp at h
    · rw [if_neg hover]
      by_cases hce : cur.isEmpty = true
      · have hch : chunks = [] := hemp hce
        subst hch
        rw [if_pos hce]
        apply ih [] p (fun x hx => hps x (List.mem_cons_of_mem _ hx))
        · rw [if_neg hpe]
          simp
        · intro h
          exact absurd h hpe
      · rw [if_neg hce]
        apply ih chunks _ (fun x hx => hps x (List.mem_cons_of_mem _ hx))
        · have hne2 : ¬(cur ++ '\n' :: '\n' :: p).isEmpty = true := by
            simp [List.isEmpty_iff]
          rw [if_neg hne2]
          rw [if_neg hce] at hchain
          have hc2 := List.chain'_append.mp hchain
          apply List.chain'_append.mpr
          refine ⟨hc2.1, by simp, ?_⟩
          intro x hx y hy
          have hyl : cur ++ '\n' :: '\n' :: p = y := by simpa using hy
          subst hyl
          have hrel := hc2.2.2 x hx cur (by simp)
          exact overlapRel_append _ hrel
        · intro h
          simp [List.isEmpty_iff] at h

/-- C6 counterexample: with `chunkSize=3`, `overlap=1` and the one-paragraph
text `"ab. cd."`, sentence-level splitting yields `["ab.", "cd."]`; the second
chunk does not begin with the last character of the first, so the claimed
universal overlap fails. -/
theorem claim_C6_counterexample :
    (0 : Nat) < 1 ∧ 1 < (split_text 3 1 "ab. cd.".toList).length ∧
    ¬(split_text 3 1 "ab. cd.".toList).Chain' (overlapRel 1) := by
  refine ⟨by decide, by decide, ?_⟩
  intro hch
  have hsplit : split_text 3 1 "ab. cd.".toList = ["ab.".toList, "cd.".toList] := by
    decide
  rw [hsplit, List.chain'_cons] at hch
  have hfalse : ¬overlapRel 1 "ab.".toList "cd.".toList := by
    unfold overlapRel
    decide
  exact hfalse hch.1

/-- C6 amended: whenever `overlap > 0`, no paragraph of the text exceeds
`chunkSize` (so no sentence-level splitting occurs), and more than one chunk
is produced, every chunk after the first begins with the last `overlap`
characters of the immediately preceding chunk. -/
theorem claim_C6_amended :
    ∀ (text : Str) (cs ov : Nat), 0 < ov →
      (∀ p ∈ splitByParagraphs text, p.length ≤ cs) →
      1 < (split_text cs ov text).length →
      (split_text cs ov text).Chain' (overlapRel ov) := by
  intro text cs ov hov hps _
  unfold split_text
  split
  · simp
  · have hgoal : List.Chain' (overlapRel ov)
        (if (splitByParagraphs text).isEmpty = true then []
         else splitTextLoop cs ov (splitByParagraphs text) [] []) := by
      split
      · simp
      · exact splitTextLoop_chain cs ov text hov _ [] []
          (fun p hp => ⟨hp, hps p hp⟩) (by simp) (fun _ => rfl)
    exact hgoal

/-- C6 witness: with `chunkSize=4`, `overlap=3` and the two-paragraph text
`"a b.\n\ncc"` (each paragraph within the bound), the second chunk
`" b. cc"` begins with `" b."`, the last 3 characters of `"a b."`. -/
theorem claim_C6_witness :
    (0 : Nat) < 3 ∧
    (∀ p ∈ splitByParagraphs "a b.\n\ncc".toList, p.length ≤ 4) ∧
    1 < (split_text 4 3 "a b.\n\ncc".toList).length ∧
    (split_text 4 3 "a b.\n\ncc".toList).Chain' (overlapRel 3) :=
  ⟨by decide, by decide, by decide,
   claim_C6_amended "a b.\n\ncc".toList 4 3 (by decide) (by decide) (by decide)⟩
